import Mathlib

/-!
Verification development for the lister file-catalog program.

The Rust source is shallowly embedded: machine integers become Nat/Int with
explicit range handling at the documented cast points, SQLite tables become
Lean lists of row structures, fallible operations return Except, and the
SQLite transaction combinator becomes an explicit state-passing wrapper that
restores the pre-state on error.
-/

namespace Lister

/-! ## Integer conversions (infrastructure/database/conversion.rs)

Rust u64 is modelled as Nat (theorem hypotheses add the upper bound 2^64
where it matters) and i64 as Int.  The source converts with
i64::try_from(u64) / u64::try_from(i64), mapping failure to 0. -/

/-- Upper bound of i64: 2^63 - 1. -/
def i64MaxNat : Nat := 2 ^ 63 - 1

/-- u64 to i64 conversion modelling ToI64::to_i64_or_zero:
i64::try_from(self).unwrap_or(0).  try_from fails exactly when the value
exceeds i64::MAX, in which case 0 is returned. -/
def toI64OrZero (v : Nat) : Int :=
  if v ≤ i64MaxNat then (v : Int) else 0

/-- i64 to u64 conversion modelling ToU64::to_u64_or_zero:
u64::try_from(self).unwrap_or(0).  try_from fails exactly when the value
is negative, in which case 0 is returned. -/
def toU64OrZero (i : Int) : Nat :=
  if i < 0 then 0 else i.toNat

/-! ## Rust pointer-width casts (ui/domain services)

The service layer casts usize to i64 with the as operator and back.  On a
64-bit target, usize arithmetic wraps modulo 2^64 (release profile) and
the as-cast to i64 reinterprets the low 64 bits as a signed value. -/

/-- Rust (n as i64) for a usize value: reduce modulo 2^64 and reinterpret
as two's-complement signed. -/
def asI64 (n : Nat) : Int :=
  if n % 2 ^ 64 < 2 ^ 63 then ((n % 2 ^ 64 : Nat) : Int)
  else ((n % 2 ^ 64 : Nat) : Int) - 2 ^ 64

/-- Rust (i as usize) for an i64 value: reinterpret the two's-complement
bits as unsigned. -/
def asUsize (i : Int) : Nat :=
  (i % 2 ^ 64).toNat

/-! ## Query result items (domain/entities/file_entry.rs, database/entities.rs)

FileWithMetadata is the denormalized join row handed to the UI.  The DTO
read back from SQLite carries i64 columns; conversion.rs turns them into
u64 domain values with to_u64_or_zero. -/

/-- Raw joined row as selected from SQLite (FileWithMetadataDto):
available_space and weight are i64 columns. -/
structure FileWithMetadataDto where
  categoryName : String
  driveName : String
  driveAvailableSpace : Int
  driveInsertionTime : Nat
  path : String
  weight : Int
deriving DecidableEq, Repr

/-- Domain query-result item (FileWithMetadata) with unsigned sizes. -/
structure FileWithMetadata where
  categoryName : String
  driveName : String
  driveAvailableSpace : Nat
  driveInsertionTime : Nat
  path : String
  sizeBytes : Nat
deriving DecidableEq, Repr

/-- The From conversion FileWithMetadataDto to FileWithMetadata (conversion.rs):
the two i64 columns go through to_u64_or_zero. -/
def dtoToDomain (dto : FileWithMetadataDto) : FileWithMetadata :=
  { categoryName := dto.categoryName
    driveName := dto.driveName
    driveAvailableSpace := toU64OrZero dto.driveAvailableSpace
    driveInsertionTime := dto.driveInsertionTime
    path := dto.path
    sizeBytes := toU64OrZero dto.weight }

/-! ## SQLite LIKE matching and search patterns (query_repository.rs)

QueryRepository::search_pattern builds format!("%q%").replace(' ', "_") and
the repository filters rows with the SQL LIKE operator.  SQLite LIKE:
the percent character matches any sequence of zero or more characters, the
underscore matches any single character, and comparison of ordinary
characters is case-insensitive for the ASCII range (default, no
case_sensitive_like pragma is set by the program). -/

/-- ASCII lower-casing as used by SQLite default LIKE comparisons. -/
def lowerAscii (c : Char) : Char :=
  if 'A' ≤ c ∧ c ≤ 'Z' then Char.ofNat (c.toNat + 32) else c

/-- SQLite LIKE pattern matching over character lists: percent matches any
sequence, underscore matches one character, other characters compare
case-insensitively in the ASCII range. -/
def likeMatch : List Char → List Char → Bool
  | [], t => t.isEmpty
  | p :: ps, t =>
    if p = '%' then
      likeMatch ps t ||
        (match t with
         | [] => false
         | _ :: ts => likeMatch (p :: ps) ts)
    else
      match t with
      | [] => false
      | c :: ts => (p = '_' || lowerAscii p == lowerAscii c) && likeMatch ps ts
termination_by p t => (t.length, p.length)

/-- QueryRepository::search_pattern: wrap the query in percent wildcards,
then replace every space by the single-character wildcard underscore. -/
def searchPattern (query : String) : List Char :=
  ('%' :: query.data ++ ['%']).map (fun c => if c = ' ' then '_' else c)

/-! ## Single-slot result cache (ui/components/read/cache.rs) -/

/-- Cache: single-slot criteria-keyed page cache held by the read page. -/
structure Cache where
  drive : Option String
  query : Option String
  results : Option (List FileWithMetadata)
deriving DecidableEq, Repr

/-- Cache::new. -/
def Cache.new : Cache := ⟨none, none, none⟩

/-- Cache::is_valid_for: both the drive filter and the query string must
equal the stored key. -/
def Cache.isValidFor (c : Cache) (selectedDrive : Option String) (query : String) : Bool :=
  c.drive == selectedDrive && c.query == some query

/-- Rust slice expression v[start..stop]: the sub-list when
start ≤ stop ≤ v.len(), and a panic (modeled as the outer none) on a
reversed or out-of-bounds range. -/
def sliceRange {α : Type} (l : List α) (start stop : Nat) : Option (List α) :=
  if start ≤ stop ∧ stop ≤ l.length then some ((l.drop start).take (stop - start))
  else none

/-- Cache::get_page under release-mode usize arithmetic: serve one page
from the cached result set when the key matches, results are present and
the start index is in bounds, else return the caller-visible None (inner
none).  start = page_index * items_per_page and the end bound
start + items_per_page are usize operations wrapping modulo 2^64; when
the wrapped end falls below start, results[start..end] is a reversed
range and the source panics (outer none); some r is a call returning r. -/
def Cache.getPage (c : Cache) (selectedDrive : Option String) (query : String)
    (pageIndex itemsPerPage : Nat) : Option (Option (List FileWithMetadata)) :=
  if c.isValidFor selectedDrive query then
    match c.results with
    | some results =>
        let start := (pageIndex * itemsPerPage) % 2 ^ 64
        if start < results.length then
          (sliceRange results start
              (min ((start + itemsPerPage) % 2 ^ 64) results.length)).map some
        else some none
    | none => some none
  else some none

/-- A one-row cache with a matching key, used to exercise get_page at
concrete inputs. -/
def sampleCache : Cache :=
  ⟨none, some "q", some [⟨"c", "d", 0, 0, "p", 0⟩]⟩

/-! ## Case-insensitive substring containment (specification side)

Used to state what LIKE-based search actually returns for a plain query. -/

/-- Case-insensitive (ASCII) test that s is a prefix of t. -/
def startsWithCI : List Char → List Char → Bool
  | [], _ => true
  | _ :: _, [] => false
  | a :: s, b :: t => lowerAscii a == lowerAscii b && startsWithCI s t

/-- Case-insensitive (ASCII) test that s occurs as a contiguous substring
of t. -/
def containsCI (s : List Char) : List Char → Bool
  | [] => startsWithCI s []
  | c :: ts => startsWithCI s (c :: ts) || containsCI s ts

/-! ## Read-side store and pagination (query_repository.rs,
application/file_query_service.rs, domain/services/file_query_service.rs)

The joined relation file_entries x drive_entries x file_categories is
modelled as a list of FileWithMetadataDto rows in a fixed store order (the
deterministic row order SQLite serves for identical queries; the program
specifies no ORDER BY on search).  OFFSET/LIMIT follow SQLite: a negative
offset is treated as zero, a negative limit means no limit. -/

/-- SQL OFFSET/LIMIT applied to the rows of a query result.  Int.toNat
sends a negative offset to 0, matching SQLite; a negative limit disables
the limit, matching SQLite. -/
def sqliteSlice {α : Type} (l : List α) (offset limit : Int) : List α :=
  let dropped := l.drop offset.toNat
  if limit < 0 then dropped else dropped.take limit.toNat

/-- Row filter of count_search_results / search_files_paginated: optional
exact drive-name equality and optional LIKE pattern on path. -/
def rowMatches (selectedDrive query : Option String) (r : FileWithMetadataDto) : Bool :=
  (match selectedDrive with
   | none => true
   | some d => r.driveName == d) &&
  (match query with
   | none => true
   | some s => likeMatch (searchPattern s) r.path.data)

/-- Rows of the store matching the search criteria, in store order. -/
def matchingRows (db : List FileWithMetadataDto) (selectedDrive query : Option String) :
    List FileWithMetadataDto :=
  db.filter (rowMatches selectedDrive query)

/-- QueryRepository::count_search_results: SELECT COUNT of the filtered
join, an i64, returned through to_u64_or_zero. -/
def countSearchResults (db : List FileWithMetadataDto) (selectedDrive query : Option String) :
    Nat :=
  toU64OrZero ((matchingRows db selectedDrive query).length : Int)

/-- QueryRepository::search_files_paginated: filtered join with
.limit(limit.to_i64_or_zero()).offset(offset.to_i64_or_zero()), rows
converted to domain items. -/
def searchFilesPaginated (db : List FileWithMetadataDto) (selectedDrive query : Option String)
    (offset limit : Nat) : List FileWithMetadata :=
  (sqliteSlice (matchingRows db selectedDrive query)
      (toI64OrZero offset) (toI64OrZero limit)).map dtoToDomain

/-- Caching threshold CACHED_SIZE from config/constants.rs, an i64. -/
def cachedSize : Int := 10000

/-- Page of items plus the stable total count, as returned by the
paginated repository queries (PaginatedResult). -/
structure PaginatedResult where
  items : List FileWithMetadata
  totalCount : Nat
deriving DecidableEq, Repr

/-- Repository-level paginated search used by the query service: OFFSET and
LIMIT are the i64 values computed by the caller, total_count is the count
of all matching rows. -/
def repoSearchPaginated (db : List FileWithMetadataDto) (selectedDrive query : Option String)
    (offset limit : Int) : PaginatedResult :=
  { items := (sqliteSlice (matchingRows db selectedDrive query) offset limit).map dtoToDomain
    totalCount := (matchingRows db selectedDrive query).length }

/-- Cached branch of FileQueryService::search_files: fetch the whole
matching set with offset 0 and limit = count, then slice the page in
memory: start = offset as usize, end = min (start + page_size) len,
items[start..end] when start is in bounds, else the empty page. -/
def cachedPageItems (db : List FileWithMetadataDto) (selectedDrive query : Option String)
    (page pageSize : Nat) : List FileWithMetadata :=
  let full := repoSearchPaginated db selectedDrive query 0
    ((matchingRows db selectedDrive query).length : Int)
  let start := asUsize (asI64 (page * pageSize))
  let stop := min (start + pageSize) full.items.length
  if start < full.items.length then (full.items.drop start).take (stop - start) else []

/-- Direct branch of FileQueryService::search_files: one offset/limit query
per page request, offset = (page * page_size) as i64, limit =
page_size as i64. -/
def directPageItems (db : List FileWithMetadataDto) (selectedDrive query : Option String)
    (page pageSize : Nat) : List FileWithMetadata :=
  (repoSearchPaginated db selectedDrive query
      (asI64 (page * pageSize)) (asI64 pageSize)).items

/-- FileQueryService::search_files: obtain the count; at or below
CACHED_SIZE serve the page by slicing the fully fetched set, above it issue
a direct offset/limit query.  total_count is the count either way. -/
def searchFiles (db : List FileWithMetadataDto) (selectedDrive query : Option String)
    (page pageSize : Nat) : PaginatedResult :=
  let count := (matchingRows db selectedDrive query).length
  if (count : Int) ≤ cachedSize then
    { items := cachedPageItems db selectedDrive query page pageSize, totalCount := count }
  else
    { items := directPageItems db selectedDrive query page pageSize, totalCount := count }

/-! ## Write-side store model (schema.rs, command_repository.rs, pool.rs)

The three tables are lists of rows in insertion order; SQLite unordered
scans (SELECT ... LIMIT 1 behind diesel first) are modelled as first match
in that order.  UUID v4 generation is modelled by a fresh-id counter
nextUuid carried in the state; Local::now() by a fixed timestamp now
carried in the state.  Failure of the underlying store at each write
statement is injected through a FailSpec so that error behaviour is
expressible; the immediate transaction wrapper restores the initial state
whenever its body errors, which is the SQLite rollback semantics of
diesel immediate_transaction. -/

/-- Uuid is modelled as a natural number drawn from the nextUuid supply. -/
abbrev Uuid := Nat

/-- Row of file_categories. -/
structure FileCategoryRow where
  id : Uuid
  name : String
deriving DecidableEq, Repr

/-- Row of drive_entries; available_space is an i64 column. -/
structure DriveEntryRow where
  id : Uuid
  categoryId : Uuid
  name : String
  availableSpace : Int
  insertionTime : Nat
deriving DecidableEq, Repr

/-- Row of file_entries; weight is an i64 column. -/
structure FileEntryRow where
  id : Uuid
  driveId : Uuid
  path : String
  weight : Int
deriving DecidableEq, Repr

/-- Whole write-side store plus the fresh-uuid supply and the clock. -/
structure Db where
  fileCategories : List FileCategoryRow
  driveEntries : List DriveEntryRow
  fileEntries : List FileEntryRow
  nextUuid : Nat
  now : Nat
deriving DecidableEq, Repr

/-- Domain Category input (entities/category.rs). -/
structure Category where
  name : String
deriving DecidableEq, Repr

/-- Domain Drive input (domain/model/drive.rs): name and an u64 free-space
reading. -/
structure DriveInput where
  name : String
  availableSpace : Nat
deriving DecidableEq, Repr

/-- Domain FileEntry input (scanner output): root-relative path and u64
byte size. -/
structure FileEntry where
  path : String
  sizeBytes : Nat
deriving DecidableEq, Repr

/-- Store-level error (RepositoryError::Database). -/
inductive DbError where
  | database
deriving DecidableEq, Repr

/-- Injected failure points, one per write statement issued by save and
remove_duplicates.  A true flag makes that statement fail with a database
error. -/
structure FailSpec where
  categoryInsert : Bool
  driveInsert : Bool
  driveUpdate : Bool
  filesInsert : Bool
  filesDelete : Bool
deriving DecidableEq, Repr

/-- FailSpec under which every statement succeeds. -/
def FailSpec.none : FailSpec := ⟨false, false, false, false, false⟩

instance {ε α : Type} [DecidableEq ε] [DecidableEq α] : DecidableEq (Except ε α) :=
  fun x y =>
    match x, y with
    | .ok a, .ok b =>
      if h : a = b then isTrue (by rw [h]) else isFalse (fun hc => h (Except.ok.inj hc))
    | .error e, .error f =>
      if h : e = f then isTrue (by rw [h]) else isFalse (fun hc => h (Except.error.inj hc))
    | .ok _, .error _ => isFalse (fun hc => Except.noConfusion hc)
    | .error _, .ok _ => isFalse (fun hc => Except.noConfusion hc)

/-- First file_categories row with the given name, as found by
diesel first on the name filter. -/
def findCategoryId (db : Db) (categoryName : String) : Option Uuid :=
  (db.fileCategories.find? (fun r => r.name == categoryName)).map (fun r => r.id)

/-- CommandRepository::save_category: return the id of an existing row
with this name, otherwise insert a new row with a fresh id. -/
def saveCategory (fs : FailSpec) (categoryName : String) (db : Db) :
    Except DbError (Db × Uuid) :=
  match findCategoryId db categoryName with
  | some cid => .ok (db, cid)
  | none =>
    if fs.categoryInsert then .error .database
    else
      let cid := db.nextUuid
      .ok ({ db with
              fileCategories := db.fileCategories ++ [⟨cid, categoryName⟩]
              nextUuid := db.nextUuid + 1 }, cid)

/-- Category id used by a save call: the existing row's id when the name
is already present, otherwise the fresh id the insert will allocate. -/
def resolvedCategoryId (db : Db) (categoryName : String) : Uuid :=
  match findCategoryId db categoryName with
  | some cid => cid
  | none => db.nextUuid

/-- First drive_entries row with the given name and category id. -/
def findDriveId (db : Db) (driveName : String) (categoryId : Uuid) : Option Uuid :=
  (db.driveEntries.find? (fun r => r.name == driveName && r.categoryId == categoryId)).map
    (fun r => r.id)

/-- CommandRepository::update_same_drives_available_space: set
available_space = to_i64_or_zero(space) on every drive_entries row whose
name equals the drive name, regardless of category. -/
def updateSameDrivesAvailableSpace (fs : FailSpec) (drive : DriveInput) (db : Db) :
    Except DbError Db :=
  if fs.driveUpdate then .error .database
  else
    .ok { db with
          driveEntries := db.driveEntries.map (fun r =>
            if r.name == drive.name then
              { r with availableSpace := toI64OrZero drive.availableSpace }
            else r) }

/-- CommandRepository::save_drive: if a row with this name and category
already exists, return its id and do nothing else; otherwise insert a new
row (fresh id, category, name, to_i64_or_zero(space), now) and then
propagate the space reading to all rows sharing the name. -/
def saveDrive (fs : FailSpec) (drive : DriveInput) (categoryId : Uuid) (db : Db) :
    Except DbError (Db × Uuid) :=
  match findDriveId db drive.name categoryId with
  | some did => .ok (db, did)
  | none =>
    if fs.driveInsert then .error .database
    else
      let did := db.nextUuid
      let db1 : Db :=
        { db with
          driveEntries := db.driveEntries ++
            [⟨did, categoryId, drive.name, toI64OrZero drive.availableSpace, db.now⟩]
          nextUuid := db.nextUuid + 1 }
      (updateSameDrivesAvailableSpace fs drive db1).map (fun db2 => (db2, did))

/-- CommandRepository::save_files: bulk insert one file_entries row per
input file (fresh ids, the given drive id, path, to_i64_or_zero(size));
returns the number of inserted rows. -/
def saveFiles (fs : FailSpec) (files : List FileEntry) (driveId : Uuid) (db : Db) :
    Except DbError (Db × Nat) :=
  if fs.filesInsert then .error .database
  else
    let rows := files.enum.map (fun p =>
      FileEntryRow.mk (db.nextUuid + p.1) driveId p.2.path (toI64OrZero p.2.sizeBytes))
    .ok ({ db with
           fileEntries := db.fileEntries ++ rows
           nextUuid := db.nextUuid + files.length }, rows.length)

/-- Ownership test of the correlated EXISTS subquery in
do_remove_duplicates: the file row's drive exists, has the given drive
name, and its category has the given category name. -/
def ownedBy (db : Db) (categoryName driveName : String) (f : FileEntryRow) : Bool :=
  db.driveEntries.any (fun dr =>
    dr.id == f.driveId && dr.name == driveName &&
      db.fileCategories.any (fun c => c.id == dr.categoryId && c.name == categoryName))

/-- CommandRepository::do_remove_duplicates: delete every file_entries row
owned by a (category name, drive name) matching drive. -/
def doRemoveDuplicates (fs : FailSpec) (categoryName driveName : String) (db : Db) :
    Except DbError Db :=
  if fs.filesDelete then .error .database
  else .ok { db with
             fileEntries := db.fileEntries.filter
               (fun f => !(ownedBy db categoryName driveName f)) }

/-- SqliteRepositoryPool::execute_in_transaction via
immediate_transaction: run the body; on success keep its state, on error
roll every change back and surface the error. -/
def executeInTransaction {α : Type} (body : Db → Except DbError (Db × α)) (db : Db) :
    Db × Except DbError α :=
  match body db with
  | .ok (db2, a) => (db2, .ok a)
  | .error e => (db, .error e)

/-- CommandRepository::save: resolve-or-insert the category, resolve or
insert the drive (with space propagation on insert), bulk insert the
files — all inside one immediate transaction. -/
def save (fs : FailSpec) (category : Category) (drive : DriveInput)
    (files : List FileEntry) (db : Db) : Db × Except DbError Nat :=
  executeInTransaction (fun conn => do
    let (db1, cid) ← saveCategory fs category.name conn
    let (db2, did) ← saveDrive fs drive cid db1
    saveFiles fs files did db2) db

/-- CommandRepository::remove_duplicates: the delete inside one immediate
transaction. -/
def removeDuplicates (fs : FailSpec) (category : Category) (driveName : String) (db : Db) :
    Db × Except DbError Unit :=
  executeInTransaction (fun conn =>
    (doRemoveDuplicates fs category.name driveName conn).map (fun db2 => (db2, ()))) db

/-- One indexing run as the presentation layer performs it before
re-indexing: remove_duplicates for the pair, then save. -/
def indexRun (category : Category) (drive : DriveInput) (files : List FileEntry) (db : Db) :
    Db :=
  (save FailSpec.none category drive files
    (removeDuplicates FailSpec.none category drive.name db).1).1

/-- Row transformation of update_same_drives_available_space: rows whose
name matches the drive get the converted space reading, others are kept. -/
def updSpace (drive : DriveInput) (r : DriveEntryRow) : DriveEntryRow :=
  if r.name == drive.name then
    { r with availableSpace := toI64OrZero drive.availableSpace }
  else r

/-- End state of a successful save call, written out as one total
function: resolve or insert the category, resolve the drive or insert it
and propagate the space reading to all rows of the same name, then append
the file rows under the resolved drive id.  The lemma save_none_eq
identifies this with the state save produces whenever it succeeds. -/
def postSave (category : Category) (drive : DriveInput) (files : List FileEntry) (db : Db) :
    Db :=
  let cid := resolvedCategoryId db category.name
  let dbA : Db :=
    match findCategoryId db category.name with
    | some _ => db
    | none =>
      { db with
        fileCategories := db.fileCategories ++ [⟨cid, category.name⟩]
        nextUuid := db.nextUuid + 1 }
  let foundDrive := findDriveId dbA drive.name cid
  let did := match foundDrive with
    | some existing => existing
    | none => dbA.nextUuid
  let dbB : Db :=
    match foundDrive with
    | some _ => dbA
    | none =>
      { dbA with
        driveEntries :=
          (dbA.driveEntries ++
            [DriveEntryRow.mk did cid drive.name (toI64OrZero drive.availableSpace)
              dbA.now]).map (updSpace drive)
        nextUuid := dbA.nextUuid + 1 }
  { dbB with
    fileEntries := dbB.fileEntries ++
      files.enum.map (fun p =>
        FileEntryRow.mk (dbB.nextUuid + p.1) did p.2.path (toI64OrZero p.2.sizeBytes))
    nextUuid := dbB.nextUuid + files.length }

/-- End state of a successful remove_duplicates call. -/
def postRemove (categoryName driveName : String) (db : Db) : Db :=
  { db with
    fileEntries := db.fileEntries.filter
      (fun f => !(ownedBy db categoryName driveName f)) }

/-- Referential sanity of a store state: every stored id and every stored
foreign key is below the fresh-id supply.  Every state produced by the
repository from an empty store satisfies this. -/
def Db.WF (db : Db) : Prop :=
  (∀ r ∈ db.fileCategories, r.id < db.nextUuid) ∧
  (∀ r ∈ db.driveEntries, r.id < db.nextUuid ∧ r.categoryId < db.nextUuid) ∧
  (∀ f ∈ db.fileEntries, f.id < db.nextUuid ∧ f.driveId < db.nextUuid)

instance (db : Db) : Decidable db.WF := by
  unfold Db.WF
  infer_instance

/-! ## Directory scanner (application/directory_scanner.rs)

The filesystem is modelled as a finite tree; paths are lists of components
(the scanner's separator convention).  jwalk with sort(true) visits every
entry depth-first, the children of each directory in ascending file-name
order; the traversal yields absolute paths, i.e. the root path followed by
the entry's root-relative components.  Only regular files pass the
file-type filter; for each one the root prefix is stripped from the
absolute path (Path::strip_prefix, an Err when the path is not under the
root) and the size is the metadata byte size stored at the file node. -/

/-- Insertion of one element into a list sorted by the comparator. -/
def insertLe {α : Type} (le : α → α → Bool) (a : α) : List α → List α
  | [] => [a]
  | b :: l => if le a b then a :: b :: l else b :: insertLe le a l

/-- Insertion sort by the comparator; models the sorted traversal order
chosen by jwalk sort(true). -/
def sortLe {α : Type} (le : α → α → Bool) : List α → List α
  | [] => []
  | a :: l => insertLe le a (sortLe le l)

/-- A filesystem subtree: a regular file with its metadata byte size, or a
directory with named entries. -/
inductive FsTree where
  | file (size : Nat)
  | dir (entries : List (String × FsTree))

/-- DirEntry::file_type().is_file(). -/
def FsTree.isFileNode : FsTree → Bool
  | .file _ => true
  | .dir _ => false

/-- Metadata byte size of a node (metadata.len(); only read on files). -/
def FsTree.nodeSize : FsTree → Nat
  | .file s => s
  | .dir _ => 0

/-- Name comparator for sibling entries (jwalk sorts by file name). -/
def entryNameLe {β : Type} (a b : String × β) : Bool :=
  decide (a.1 ≤ b.1)

/-- Depth-first traversal of a subtree in jwalk sorted order, yielding
every entry (directories included) with its root-relative component
path.  The subtree root itself is yielded with the empty relative path,
exactly as jwalk yields the walked root. -/
def walkRel : FsTree → List (List String × FsTree)
  | .file s => [([], .file s)]
  | .dir es => ([], .dir es) ::
      (sortLe (fun a b => entryNameLe a.1 b.1) es.attach).flatMap
        (fun x => (walkRel x.1.2).map (fun e => (x.1.1 :: e.1, e.2)))
termination_by t => sizeOf t
decreasing_by
  obtain ⟨⟨n, c⟩, hx⟩ := x
  have hm := List.sizeOf_lt_of_mem hx
  simp only [Prod.mk.sizeOf_spec] at hm
  simp only [FsTree.dir.sizeOf_spec]
  omega

/-- Scanner error taxonomy (DirectoryScannerError). -/
inductive ScanError where
  | relativePath
  | metadata
deriving DecidableEq, Repr

/-- Path::strip_prefix on component paths: remove the root components,
failing when the path does not start with them. -/
def stripRoot : List String → List String → Except ScanError (List String)
  | [], rest => .ok rest
  | _ :: _, [] => .error .relativePath
  | r :: rs, a :: trail => if r = a then stripRoot rs trail else .error .relativePath

/-- A scanned file record: root-relative component path and metadata byte
size (domain FileEntry as produced by the scanner). -/
structure ScanRecord where
  path : List String
  sizeBytes : Nat
deriving DecidableEq, Repr

/-- scan_directory: walk the tree under the root in jwalk sorted order
(absolute paths), keep only regular files, and build one record per file
by stripping the root prefix and reading the metadata size; collect
short-circuits on the first error. -/
def scanDirectory (root : List String) (t : FsTree) : Except ScanError (List ScanRecord) :=
  (((walkRel t).map (fun e => (root ++ e.1, e.2))).filter
      (fun e => e.2.isFileNode)).mapM
    (fun e => (stripRoot root e.1).map (fun rel => ScanRecord.mk rel e.2.nodeSize))

/-- Specification-side listing: the root-relative path and size of every
regular file of the tree, children in ascending name order, depth-first. -/
def filesOf : FsTree → List (List String × Nat)
  | .file s => [([], s)]
  | .dir es =>
      (sortLe (fun a b => entryNameLe a.1 b.1) es.attach).flatMap
        (fun x => (filesOf x.1.2).map (fun e => (x.1.1 :: e.1, e.2)))
termination_by t => sizeOf t
decreasing_by
  obtain ⟨⟨n, c⟩, hx⟩ := x
  have hm := List.sizeOf_lt_of_mem hx
  simp only [Prod.mk.sizeOf_spec] at hm
  simp only [FsTree.dir.sizeOf_spec]
  omega

/-- The tree has a regular file of the given size at the given relative
component path. -/
inductive IsFileAt : FsTree → List String → Nat → Prop
  | file (s : Nat) : IsFileAt (.file s) [] s
  | dir {es : List (String × FsTree)} {n : String} {c : FsTree} {p : List String} {s : Nat} :
      (n, c) ∈ es → IsFileAt c p s → IsFileAt (.dir es) (n :: p) s

/-- Sibling names are distinct at every level, as on a real filesystem. -/
def nodupNames : FsTree → Bool
  | .file _ => true
  | .dir es =>
      decide (es.map Prod.fst).Nodup &&
        es.attach.all (fun x => nodupNames x.1.2)
termination_by t => sizeOf t
decreasing_by
  obtain ⟨⟨n, c⟩, hx⟩ := x
  have hm := List.sizeOf_lt_of_mem hx
  simp only [Prod.mk.sizeOf_spec] at hm
  simp only [FsTree.dir.sizeOf_spec]
  omega

/-! ## Lemmas: successful save runs are the postSave state -/

lemma saveCategory_ok_none {fs : FailSpec} {cn : String} {db : Db} {x : Db × Uuid}
    (h : saveCategory fs cn db = .ok x) :
    saveCategory FailSpec.none cn db = .ok x := by
  unfold saveCategory at h ⊢
  cases hc : findCategoryId db cn with
  | some cid => simpa [hc] using h
  | none =>
    rw [hc] at h
    by_cases hf : fs.categoryInsert
    · simp [hf] at h
    · simpa [hf, FailSpec.none] using h

lemma saveDrive_ok_none {fs : FailSpec} {d : DriveInput} {cid : Uuid} {db : Db}
    {x : Db × Uuid} (h : saveDrive fs d cid db = .ok x) :
    saveDrive FailSpec.none d cid db = .ok x := by
  unfold saveDrive at h ⊢
  cases hd : findDriveId db d.name cid with
  | some did => simpa [hd] using h
  | none =>
    rw [hd] at h
    by_cases hf : fs.driveInsert
    · simp [hf] at h
    · simp only [hf, if_false, Bool.false_eq_true, FailSpec.none] at h ⊢
      unfold updateSameDrivesAvailableSpace at h ⊢
      by_cases hu : fs.driveUpdate
      · simp [hu, Except.map] at h
      · simpa [hu] using h

lemma saveFiles_ok_none {fs : FailSpec} {files : List FileEntry} {did : Uuid} {db : Db}
    {x : Db × Nat} (h : saveFiles fs files did db = .ok x) :
    saveFiles FailSpec.none files did db = .ok x := by
  unfold saveFiles at h ⊢
  by_cases hf : fs.filesInsert
  · simp [hf] at h
  · simpa [hf, FailSpec.none] using h

lemma save_success_none {fs : FailSpec} {category : Category} {drive : DriveInput}
    {files : List FileEntry} {db : Db} {n : Nat}
    (h : (save fs category drive files db).2 = .ok n) :
    save fs category drive files db = save FailSpec.none category drive files db := by
  unfold save executeInTransaction at h ⊢
  simp only [bind, Except.bind] at h ⊢
  cases hc : saveCategory fs category.name db with
  | error e => simp [hc] at h
  | ok x =>
    obtain ⟨db1, cid⟩ := x
    simp only [hc, saveCategory_ok_none hc] at h ⊢
    cases hd : saveDrive fs drive cid db1 with
    | error e => simp [hd] at h
    | ok y =>
      obtain ⟨db2, did⟩ := y
      simp only [hd, saveDrive_ok_none hd] at h ⊢
      cases hfi : saveFiles fs files did db2 with
      | error e => simp [hfi] at h
      | ok z => simp only [hfi, saveFiles_ok_none hfi]

lemma save_none_eq (category : Category) (drive : DriveInput) (files : List FileEntry)
    (db : Db) :
    save FailSpec.none category drive files db =
      (postSave category drive files db, .ok files.length) := by
  unfold save executeInTransaction postSave resolvedCategoryId
  simp only [bind, Except.bind, saveCategory, saveDrive, saveFiles,
    updateSameDrivesAvailableSpace, FailSpec.none, if_false, Except.map]
  cases hc : findCategoryId db category.name with
  | some cid =>
    cases hd : findDriveId db drive.name cid <;>
      simp [hd, List.enum_length, updSpace]
  | none =>
    cases hd : findDriveId
        { db with
          fileCategories := db.fileCategories ++ [⟨db.nextUuid, category.name⟩]
          nextUuid := db.nextUuid + 1 } drive.name db.nextUuid <;>
      simp [hd, List.enum_length, updSpace]

lemma save_success_eq {fs : FailSpec} {category : Category} {drive : DriveInput}
    {files : List FileEntry} {db db' : Db} {n : Nat}
    (h : save fs category drive files db = (db', .ok n)) :
    db' = postSave category drive files db ∧ n = files.length := by
  have h2 : (save fs category drive files db).2 = .ok n := by rw [h]
  have h3 := save_success_none h2
  rw [h, save_none_eq] at h3
  obtain ⟨h4, h5⟩ := Prod.mk.injEq .. |>.mp h3
  exact ⟨h4, Except.ok.inj h5⟩

lemma remove_none_eq (category : Category) (driveName : String) (db : Db) :
    removeDuplicates FailSpec.none category driveName db =
      (postRemove category.name driveName db, .ok ()) := rfl

lemma indexRun_eq (category : Category) (drive : DriveInput) (files : List FileEntry)
    (db : Db) :
    indexRun category drive files db =
      postSave category drive files (postRemove category.name drive.name db) := by
  unfold indexRun
  rw [remove_none_eq, save_none_eq]

lemma updSpace_of_match {drive : DriveInput} {r : DriveEntryRow}
    (h : (r.name == drive.name) = true) :
    updSpace drive r = { r with availableSpace := toI64OrZero drive.availableSpace } := by
  unfold updSpace
  rw [if_pos h]

lemma updSpace_of_nomatch {drive : DriveInput} {r : DriveEntryRow}
    (h : ¬(r.name == drive.name) = true) :
    updSpace drive r = r := by
  unfold updSpace
  rw [if_neg h]

lemma updSpace_keeps_keys (drive : DriveInput) (r : DriveEntryRow) :
    (updSpace drive r).id = r.id ∧ (updSpace drive r).categoryId = r.categoryId ∧
      (updSpace drive r).name = r.name := by
  unfold updSpace
  split <;> exact ⟨rfl, rfl, rfl⟩

/-! ## Claim C2: atomicity of save -/

/-- Claim C2: for every failure pattern, category, drive, space reading and
file batch, if save returns an error then the store state afterwards is
exactly the state before the call — the immediate transaction rolls the
whole run back, so no partial category/drive/file state is visible. -/
theorem save_rolls_back_on_error (fs : FailSpec) (category : Category) (drive : DriveInput)
    (files : List FileEntry) (db : Db) (e : DbError)
    (h : (save fs category drive files db).2 = .error e) :
    (save fs category drive files db).1 = db := by
  unfold save executeInTransaction at h ⊢
  split at h
  · simp at h
  · rfl

/-- Witness for save_rolls_back_on_error: with every failure flag raised
and an empty store, save errors on the category insert and the state is
unchanged. -/
theorem save_rolls_back_on_error_witness :
    (save ⟨true, true, true, true, true⟩ ⟨"c"⟩ ⟨"d", 1⟩ [⟨"p", 2⟩] ⟨[], [], [], 0, 0⟩).2 =
        Except.error DbError.database ∧
      (save ⟨true, true, true, true, true⟩ ⟨"c"⟩ ⟨"d", 1⟩ [⟨"p", 2⟩] ⟨[], [], [], 0, 0⟩).1 =
        (⟨[], [], [], 0, 0⟩ : Db) :=
  ⟨by decide,
    save_rolls_back_on_error ⟨true, true, true, true, true⟩ ⟨"c"⟩ ⟨"d", 1⟩ [⟨"p", 2⟩]
      ⟨[], [], [], 0, 0⟩ DbError.database (by decide)⟩

/-! ## Claim C10: cache page lookup -/

/-- Counterexample to claim C10 as stated: with one cached result row
and a matching key, page_index = items_per_page = 2^32 makes the usize
product wrap to 0, so get_page returns Some of the first page although
page_index * items_per_page is not strictly below the stored result
length — the exactly-when characterization with the unbounded product
is false of the code. -/
theorem cache_wrap_counterexample :
    sampleCache.getPage none "q" (2 ^ 32) (2 ^ 32) =
        some (some [(⟨"c", "d", 0, 0, "p", 0⟩ : FileWithMetadata)]) ∧
      ¬ 2 ^ 32 * 2 ^ 32 < (sampleCache.results.getD []).length := by
  decide

/-- Claim C10 (amended): under the wrapping usize arithmetic of a
release build, get_page with a machine-range items_per_page returns Some
page exactly when the stored key matches, results are present, the
wrapped start index (page_index * items_per_page) mod 2^64 lies strictly
inside the stored results, and the end computation start +
items_per_page does not itself wrap; the page is then the in-bounds
slice of at most items_per_page items from the wrapped start.  When the
end computation wraps while the start guard passes, the source panics on
a reversed slice range instead of returning; in every remaining case the
lookup returns None. -/
theorem cache_get_page_characterization (c : Cache) (selectedDrive : Option String)
    (query : String) (pageIndex itemsPerPage : Nat) (hipp : itemsPerPage < 2 ^ 64) :
    (∀ page, c.getPage selectedDrive query pageIndex itemsPerPage = some (some page) ↔
      (c.isValidFor selectedDrive query = true ∧
        ∃ rs, c.results = some rs ∧
          pageIndex * itemsPerPage % 2 ^ 64 < rs.length ∧
          pageIndex * itemsPerPage % 2 ^ 64 + itemsPerPage < 2 ^ 64 ∧
          page = (rs.drop (pageIndex * itemsPerPage % 2 ^ 64)).take itemsPerPage)) ∧
    (c.getPage selectedDrive query pageIndex itemsPerPage = none ↔
      (c.isValidFor selectedDrive query = true ∧
        ∃ rs, c.results = some rs ∧
          pageIndex * itemsPerPage % 2 ^ 64 < rs.length ∧
          2 ^ 64 ≤ pageIndex * itemsPerPage % 2 ^ 64 + itemsPerPage)) ∧
    (c.getPage selectedDrive query pageIndex itemsPerPage = some none ↔
      ¬(c.isValidFor selectedDrive query = true ∧
        ∃ rs, c.results = some rs ∧
          pageIndex * itemsPerPage % 2 ^ 64 < rs.length)) := by
  by_cases hv : c.isValidFor selectedDrive query = true
  · cases hres : c.results with
    | none =>
      refine ⟨fun page => ?_, ?_, ?_⟩ <;> simp [Cache.getPage, hv, hres]
    | some rs =>
      by_cases hlt : pageIndex * itemsPerPage % 2 ^ 64 < rs.length
      · by_cases hsum : pageIndex * itemsPerPage % 2 ^ 64 + itemsPerPage < 2 ^ 64
        · have hmod : (pageIndex * itemsPerPage % 2 ^ 64 + itemsPerPage) % 2 ^ 64 =
              pageIndex * itemsPerPage % 2 ^ 64 + itemsPerPage := Nat.mod_eq_of_lt hsum
          have hcond : pageIndex * itemsPerPage % 2 ^ 64 ≤
                min (pageIndex * itemsPerPage % 2 ^ 64 + itemsPerPage) rs.length ∧
              min (pageIndex * itemsPerPage % 2 ^ 64 + itemsPerPage) rs.length ≤
                rs.length :=
            ⟨le_min (Nat.le_add_right _ _) (le_of_lt hlt), min_le_right _ _⟩
          have htake : (rs.drop (pageIndex * itemsPerPage % 2 ^ 64)).take
                (min (pageIndex * itemsPerPage % 2 ^ 64 + itemsPerPage) rs.length -
                  pageIndex * itemsPerPage % 2 ^ 64) =
              (rs.drop (pageIndex * itemsPerPage % 2 ^ 64)).take itemsPerPage := by
            rw [List.take_eq_take]
            simp only [List.length_drop]
            omega
          have hval : c.getPage selectedDrive query pageIndex itemsPerPage =
              some (some ((rs.drop (pageIndex * itemsPerPage % 2 ^ 64)).take
                itemsPerPage)) := by
            simp only [Cache.getPage, hv, if_true, hres]
            rw [if_pos hlt]
            unfold sliceRange
            rw [hmod, if_pos hcond, htake]
            rfl
          refine ⟨fun page => ?_, ?_, ?_⟩ <;> rw [hval]
          · constructor
            · intro h
              have hp := Option.some.inj (Option.some.inj h)
              exact ⟨hv, rs, rfl, hlt, hsum, hp.symm⟩
            · rintro ⟨-, rs2, hrs2, -, -, hpage⟩
              cases Option.some.inj hrs2
              rw [hpage]
          · constructor
            · intro h
              exact absurd h (by simp)
            · rintro ⟨-, rs2, -, -, hge⟩
              omega
          · constructor
            · intro h
              exact absurd h (by simp)
            · intro hneg
              exact absurd ⟨hv, rs, rfl, hlt⟩ hneg
        · have hwrap : (pageIndex * itemsPerPage % 2 ^ 64 + itemsPerPage) % 2 ^ 64 =
              pageIndex * itemsPerPage % 2 ^ 64 + itemsPerPage - 2 ^ 64 := by
            have hst : pageIndex * itemsPerPage % 2 ^ 64 < 2 ^ 64 :=
              Nat.mod_lt _ (by norm_num)
            omega
          have hrev : ¬(pageIndex * itemsPerPage % 2 ^ 64 ≤
                min (pageIndex * itemsPerPage % 2 ^ 64 + itemsPerPage - 2 ^ 64)
                  rs.length ∧
              min (pageIndex * itemsPerPage % 2 ^ 64 + itemsPerPage - 2 ^ 64)
                  rs.length ≤ rs.length) := by
            rintro ⟨h1, -⟩
            have h2 := le_trans h1 (min_le_left _ _)
            omega
          have hval : c.getPage selectedDrive query pageIndex itemsPerPage = none := by
            simp only [Cache.getPage, hv, if_true, hres]
            rw [if_pos hlt]
            unfold sliceRange
            rw [hwrap, if_neg hrev]
            rfl
          refine ⟨fun page => ?_, ?_, ?_⟩ <;> rw [hval]
          · constructor
            · intro h
              exact absurd h (by simp)
            · rintro ⟨-, rs2, -, -, hs2, -⟩
              omega
          · constructor
            · intro _
              exact ⟨hv, rs, rfl, hlt, by omega⟩
            · intro _
              rfl
          · constructor
            · intro h
              exact absurd h (by simp)
            · intro hneg
              exact absurd ⟨hv, rs, rfl, hlt⟩ hneg
      · have hval : c.getPage selectedDrive query pageIndex itemsPerPage =
            some none := by
          simp only [Cache.getPage, hv, if_true, hres]
          rw [if_neg hlt]
        refine ⟨fun page => ?_, ?_, ?_⟩ <;> rw [hval]
        · constructor
          · intro h
            exact absurd h (by simp)
          · rintro ⟨-, rs2, hrs2, hlt2, -, -⟩
            cases Option.some.inj hrs2
            exact absurd hlt2 hlt
        · constructor
          · intro h
            exact absurd h (by simp)
          · rintro ⟨-, rs2, hrs2, hlt2, -⟩
            cases Option.some.inj hrs2
            exact absurd hlt2 hlt
        · constructor
          · intro _
            rintro ⟨-, rs2, hrs2, hlt2⟩
            cases Option.some.inj hrs2
            exact absurd hlt2 hlt
          · intro _
            rfl
  · have hval : c.getPage selectedDrive query pageIndex itemsPerPage = some none := by
      simp only [Cache.getPage, if_neg hv]
    refine ⟨fun page => ?_, ?_, ?_⟩ <;> rw [hval]
    · constructor
      · intro h
        exact absurd h (by simp)
      · rintro ⟨hv2, -⟩
        exact absurd hv2 hv
    · constructor
      · intro h
        exact absurd h (by simp)
      · rintro ⟨hv2, -⟩
        exact absurd hv2 hv
    · constructor
      · intro _
        rintro ⟨hv2, -⟩
        exact absurd hv2 hv
      · intro _
        rfl

/-- Witness for cache_get_page_characterization: the one-row cache with
matching key at page 0 and two items per page. -/
theorem cache_get_page_characterization_witness :
    (2 : Nat) < 2 ^ 64 ∧
      ((∀ page, sampleCache.getPage none "q" 0 2 = some (some page) ↔
          (sampleCache.isValidFor none "q" = true ∧
            ∃ rs, sampleCache.results = some rs ∧
              0 * 2 % 2 ^ 64 < rs.length ∧
              0 * 2 % 2 ^ 64 + 2 < 2 ^ 64 ∧
              page = (rs.drop (0 * 2 % 2 ^ 64)).take 2)) ∧
        (sampleCache.getPage none "q" 0 2 = none ↔
          (sampleCache.isValidFor none "q" = true ∧
            ∃ rs, sampleCache.results = some rs ∧
              0 * 2 % 2 ^ 64 < rs.length ∧
              2 ^ 64 ≤ 0 * 2 % 2 ^ 64 + 2)) ∧
        (sampleCache.getPage none "q" 0 2 = some none ↔
          ¬(sampleCache.isValidFor none "q" = true ∧
            ∃ rs, sampleCache.results = some rs ∧
              0 * 2 % 2 ^ 64 < rs.length))) :=
  ⟨by decide, cache_get_page_characterization sampleCache none "q" 0 2 (by decide)⟩

/-! ## Claim C9: out-of-range integer conversions become zero -/

/-- Claim C9: u64 values above i64::MAX convert to 0 (not to a clamped
value) on the way into the store, both in general and for the
available_space actually persisted by a successful save; and negative i64
values read back from the store surface as 0 in query results through
to_u64_or_zero. -/
theorem conversion_boundary_zeroes :
    (∀ v : Nat, i64MaxNat < v → toI64OrZero v = 0) ∧
    (∀ v : Nat, v ≤ i64MaxNat → toI64OrZero v = (v : Int)) ∧
    (∀ i : Int, i < 0 → toU64OrZero i = 0) ∧
    (∀ fs category drive files db db' n,
      save fs category drive files db = (db', Except.ok n) →
        ∀ r ∈ db'.driveEntries, r ∉ db.driveEntries →
          r.availableSpace = toI64OrZero drive.availableSpace) ∧
    (∀ dto : FileWithMetadataDto, dto.weight < 0 → (dtoToDomain dto).sizeBytes = 0) ∧
    (∀ dto : FileWithMetadataDto, dto.driveAvailableSpace < 0 →
      (dtoToDomain dto).driveAvailableSpace = 0) := by
  refine ⟨?_, ?_, ?_, ?_, ?_, ?_⟩
  · intro v hv
    unfold toI64OrZero
    rw [if_neg (by omega)]
  · intro v hv
    unfold toI64OrZero
    rw [if_pos hv]
  · intro i hi
    unfold toU64OrZero
    rw [if_pos hi]
  · intro fs category drive files db db' n hsave r hr hnot
    obtain ⟨hdb', -⟩ := save_success_eq hsave
    subst hdb'
    unfold postSave at hr
    cases hc : findCategoryId db category.name with
    | some cid0 =>
      simp only [hc] at hr
      cases hd : findDriveId db drive.name (resolvedCategoryId db category.name) with
      | some did0 =>
        simp only [hd] at hr
        exact absurd hr hnot
      | none =>
        simp only [hd, List.map_append] at hr
        rcases List.mem_append.mp hr with hold | hnew
        · obtain ⟨r0, hr0, hupd⟩ := List.mem_map.mp hold
          by_cases hname : r0.name == drive.name
          · rw [updSpace_of_match hname] at hupd
            rw [← hupd]
          · rw [updSpace_of_nomatch hname] at hupd
            exact absurd (hupd ▸ hr0) hnot
        · simp only [List.map_cons, List.map_nil, List.mem_singleton] at hnew
          rw [hnew]
          simp [updSpace]
    | none =>
      simp only [hc] at hr
      cases hd : findDriveId
          { db with
            fileCategories :=
              db.fileCategories ++ [⟨resolvedCategoryId db category.name, category.name⟩]
            nextUuid := db.nextUuid + 1 } drive.name (resolvedCategoryId db category.name) with
      | some did0 =>
        simp only [hd] at hr
        exact absurd hr hnot
      | none =>
        simp only [hd, List.map_append] at hr
        rcases List.mem_append.mp hr with hold | hnew
        · obtain ⟨r0, hr0, hupd⟩ := List.mem_map.mp hold
          by_cases hname : r0.name == drive.name
          · rw [updSpace_of_match hname] at hupd
            rw [← hupd]
          · rw [updSpace_of_nomatch hname] at hupd
            exact absurd (hupd ▸ hr0) hnot
        · simp only [List.map_cons, List.map_nil, List.mem_singleton] at hnew
          rw [hnew]
          simp [updSpace]
  · intro dto h
    unfold dtoToDomain toU64OrZero
    simp [h]
  · intro dto h
    unfold dtoToDomain toU64OrZero
    simp [h]

/-- Witness for conversion_boundary_zeroes: concrete out-of-range values
and a concrete successful save with available_space above i64::MAX, whose
inserted drive row stores 0. -/
theorem conversion_boundary_zeroes_witness :
    i64MaxNat < 2 ^ 63 ∧ (-5 : Int) < 0 ∧
      (save FailSpec.none ⟨"c"⟩ ⟨"d", 2 ^ 63⟩ [] ⟨[], [], [], 0, 0⟩ =
        ((save FailSpec.none ⟨"c"⟩ ⟨"d", 2 ^ 63⟩ [] ⟨[], [], [], 0, 0⟩).1, Except.ok 0)) ∧
      toI64OrZero (2 ^ 63) = 0 ∧ toU64OrZero (-5) = 0 ∧
      (∀ r ∈ (save FailSpec.none ⟨"c"⟩ ⟨"d", 2 ^ 63⟩ [] ⟨[], [], [], 0, 0⟩).1.driveEntries,
        r ∉ ([] : List DriveEntryRow) → r.availableSpace = toI64OrZero (2 ^ 63)) := by
  refine ⟨by decide, by decide, by decide, ?_, ?_, ?_⟩
  · exact conversion_boundary_zeroes.1 (2 ^ 63) (by decide)
  · exact conversion_boundary_zeroes.2.2.1 (-5) (by decide)
  · exact conversion_boundary_zeroes.2.2.2.1 FailSpec.none ⟨"c"⟩ ⟨"d", 2 ^ 63⟩ [] ⟨[], [], [], 0, 0⟩
      (save FailSpec.none ⟨"c"⟩ ⟨"d", 2 ^ 63⟩ [] ⟨[], [], [], 0, 0⟩).1 0 (by decide)

/-! ## Claims C3 and C4: drive-row behaviour of save

save_drive first looks for an existing row with the same name and
category; when it finds one it returns that row's id without inserting a
row and without updating available_space.  Both claims therefore fail on
the reuse path and hold on the insert path. -/

lemma findDriveId_only_drives {db1 db2 : Db} (h : db1.driveEntries = db2.driveEntries)
    (driveName : String) (cid : Uuid) :
    findDriveId db1 driveName cid = findDriveId db2 driveName cid := by
  unfold findDriveId
  rw [h]

/-- Counterexample to claim C3 as stated: saving again under an existing
(category, drive-name) pair succeeds but reuses the drive row, leaving its
available_space at the old value instead of the newly passed one. -/
theorem space_propagation_counterexample :
    (save FailSpec.none ⟨"c"⟩ ⟨"d", 9⟩ []
        ⟨[⟨0, "c"⟩], [⟨1, 0, "d", 5, 0⟩], [], 2, 7⟩).2 = Except.ok 0 ∧
      ∃ r ∈ (save FailSpec.none ⟨"c"⟩ ⟨"d", 9⟩ []
          ⟨[⟨0, "c"⟩], [⟨1, 0, "d", 5, 0⟩], [], 2, 7⟩).1.driveEntries,
        r.name = "d" ∧ r.availableSpace ≠ toI64OrZero 9 := by
  decide

/-- Claim C3 (amended): after every successful save in which no drive row
with the given name under the resolved category pre-existed (so a new row
is inserted), every drive row whose name equals the drive name — across
all categories — carries the available_space passed to this call.  When an
existing (name, category) row is found, save reuses it and performs no
available_space update at all. -/
theorem space_propagation_on_new_drive (fs : FailSpec) (category : Category)
    (drive : DriveInput) (files : List FileEntry) (db db' : Db) (n : Nat)
    (hsave : save fs category drive files db = (db', Except.ok n))
    (hnew : findDriveId db drive.name (resolvedCategoryId db category.name) = none) :
    ∀ r ∈ db'.driveEntries, r.name = drive.name →
      r.availableSpace = toI64OrZero drive.availableSpace := by
  obtain ⟨hdb', -⟩ := save_success_eq hsave
  subst hdb'
  intro r hr hname
  unfold postSave at hr
  cases hc : findCategoryId db category.name with
  | some cid0 =>
    simp only [hc, hnew, List.map_append] at hr
    rcases List.mem_append.mp hr with hold | hnewr
    · obtain ⟨r0, hr0, hupd⟩ := List.mem_map.mp hold
      by_cases hb : r0.name == drive.name
      · rw [updSpace_of_match hb] at hupd
        rw [← hupd]
      · rw [updSpace_of_nomatch hb] at hupd
        subst hupd
        exact absurd (by simp [hname]) hb
    · simp only [List.map_cons, List.map_nil, List.mem_singleton] at hnewr
      subst hnewr
      simp [updSpace]
  | none =>
    have hnewA : findDriveId
        { db with
          fileCategories :=
            db.fileCategories ++ [⟨resolvedCategoryId db category.name, category.name⟩]
          nextUuid := db.nextUuid + 1 } drive.name (resolvedCategoryId db category.name) =
        none := by
      rw [findDriveId_only_drives rfl]
      exact hnew
    simp only [hc, hnewA, List.map_append] at hr
    rcases List.mem_append.mp hr with hold | hnewr
    · obtain ⟨r0, hr0, hupd⟩ := List.mem_map.mp hold
      by_cases hb : r0.name == drive.name
      · rw [updSpace_of_match hb] at hupd
        rw [← hupd]
      · rw [updSpace_of_nomatch hb] at hupd
        subst hupd
        exact absurd (by simp [hname]) hb
    · simp only [List.map_cons, List.map_nil, List.mem_singleton] at hnewr
      subst hnewr
      simp [updSpace]

/-- Witness for space_propagation_on_new_drive: the drive name exists only
under a different category, so a new row is inserted and both rows named
d end up carrying the new reading. -/
theorem space_propagation_on_new_drive_witness :
    (save FailSpec.none ⟨"c"⟩ ⟨"d", 9⟩ [] ⟨[⟨0, "c0"⟩], [⟨1, 0, "d", 5, 0⟩], [], 2, 7⟩ =
        ((save FailSpec.none ⟨"c"⟩ ⟨"d", 9⟩ []
          ⟨[⟨0, "c0"⟩], [⟨1, 0, "d", 5, 0⟩], [], 2, 7⟩).1, Except.ok 0)) ∧
      findDriveId ⟨[⟨0, "c0"⟩], [⟨1, 0, "d", 5, 0⟩], [], 2, 7⟩ "d"
        (resolvedCategoryId ⟨[⟨0, "c0"⟩], [⟨1, 0, "d", 5, 0⟩], [], 2, 7⟩ "c") = none ∧
      ∀ r ∈ (save FailSpec.none ⟨"c"⟩ ⟨"d", 9⟩ []
          ⟨[⟨0, "c0"⟩], [⟨1, 0, "d", 5, 0⟩], [], 2, 7⟩).1.driveEntries,
        r.name = "d" → r.availableSpace = toI64OrZero 9 :=
  ⟨by decide, by decide,
    space_propagation_on_new_drive FailSpec.none ⟨"c"⟩ ⟨"d", 9⟩ []
      ⟨[⟨0, "c0"⟩], [⟨1, 0, "d", 5, 0⟩], [], 2, 7⟩ _ 0 (by decide) (by decide)⟩

/-- Counterexample to claim C4 as stated: repeating a save for the same
category and drive name succeeds without inserting any new drive row —
the drive table is exactly the single old row afterwards. -/
theorem one_drive_row_per_run_counterexample :
    (save FailSpec.none ⟨"c"⟩ ⟨"d", 9⟩ []
        ⟨[⟨0, "c"⟩], [⟨1, 0, "d", 5, 0⟩], [], 2, 7⟩).2 = Except.ok 0 ∧
      (save FailSpec.none ⟨"c"⟩ ⟨"d", 9⟩ []
          ⟨[⟨0, "c"⟩], [⟨1, 0, "d", 5, 0⟩], [], 2, 7⟩).1.driveEntries =
        [⟨1, 0, "d", 5, 0⟩] := by
  decide

/-- Claim C4 (amended): a successful save inserts a new drive row exactly
when no row with the given name under the resolved category pre-exists: the
drive table becomes the old rows (with available_space propagated) plus one
new row carrying the given name, the resolved category, the converted
available_space and the current time; the call returns the file count and
every newly inserted file row references the new drive row's id.  When a
matching row pre-exists it is reused and no drive row is inserted. -/
theorem save_inserts_one_drive_row_when_new (fs : FailSpec) (category : Category)
    (drive : DriveInput) (files : List FileEntry) (db db' : Db) (n : Nat)
    (hsave : save fs category drive files db = (db', Except.ok n))
    (hnew : findDriveId db drive.name (resolvedCategoryId db category.name) = none) :
    ∃ newRow : DriveEntryRow,
      db'.driveEntries = db.driveEntries.map (updSpace drive) ++ [newRow] ∧
      newRow.name = drive.name ∧
      newRow.categoryId = resolvedCategoryId db category.name ∧
      newRow.availableSpace = toI64OrZero drive.availableSpace ∧
      newRow.insertionTime = db.now ∧
      n = files.length ∧
      ∀ f ∈ db'.fileEntries, f ∉ db.fileEntries → f.driveId = newRow.id := by
  obtain ⟨hdb', hn⟩ := save_success_eq hsave
  subst hdb'
  unfold postSave
  cases hc : findCategoryId db category.name with
  | some cid0 =>
    simp only [hc, hnew]
    refine ⟨⟨db.nextUuid, resolvedCategoryId db category.name, drive.name,
      toI64OrZero drive.availableSpace, db.now⟩, ?_, rfl, rfl, rfl, rfl, hn, ?_⟩
    · rw [List.map_append]
      simp [updSpace]
    · intro f hf hfnot
      rcases List.mem_append.mp hf with hfold | hfnew
      · exact absurd hfold hfnot
      · obtain ⟨p, -, hp⟩ := List.mem_map.mp hfnew
        rw [← hp]
  | none =>
    have hnewA : findDriveId
        { db with
          fileCategories :=
            db.fileCategories ++ [⟨resolvedCategoryId db category.name, category.name⟩]
          nextUuid := db.nextUuid + 1 } drive.name (resolvedCategoryId db category.name) =
        none := by
      rw [findDriveId_only_drives rfl]
      exact hnew
    simp only [hc, hnewA]
    refine ⟨⟨db.nextUuid + 1, resolvedCategoryId db category.name, drive.name,
      toI64OrZero drive.availableSpace, db.now⟩, ?_, rfl, rfl, rfl, rfl, hn, ?_⟩
    · rw [List.map_append]
      simp [updSpace]
    · intro f hf hfnot
      rcases List.mem_append.mp hf with hfold | hfnew
      · exact absurd hfold hfnot
      · obtain ⟨p, -, hp⟩ := List.mem_map.mp hfnew
        rw [← hp]

/-- Witness for save_inserts_one_drive_row_when_new at a store holding the
drive name only under another category. -/
theorem save_inserts_one_drive_row_when_new_witness :
    (save FailSpec.none ⟨"c"⟩ ⟨"d", 9⟩ [⟨"p", 3⟩]
        ⟨[⟨0, "c0"⟩], [⟨1, 0, "d", 5, 0⟩], [], 2, 7⟩ =
        ((save FailSpec.none ⟨"c"⟩ ⟨"d", 9⟩ [⟨"p", 3⟩]
          ⟨[⟨0, "c0"⟩], [⟨1, 0, "d", 5, 0⟩], [], 2, 7⟩).1, Except.ok 1)) ∧
      findDriveId ⟨[⟨0, "c0"⟩], [⟨1, 0, "d", 5, 0⟩], [], 2, 7⟩ "d"
        (resolvedCategoryId ⟨[⟨0, "c0"⟩], [⟨1, 0, "d", 5, 0⟩], [], 2, 7⟩ "c") = none ∧
      ∃ newRow : DriveEntryRow,
        (save FailSpec.none ⟨"c"⟩ ⟨"d", 9⟩ [⟨"p", 3⟩]
            ⟨[⟨0, "c0"⟩], [⟨1, 0, "d", 5, 0⟩], [], 2, 7⟩).1.driveEntries =
          ([⟨1, 0, "d", 5, 0⟩] : List DriveEntryRow).map (updSpace ⟨"d", 9⟩) ++
            [newRow] ∧
        newRow.name = "d" ∧
        newRow.categoryId =
          resolvedCategoryId ⟨[⟨0, "c0"⟩], [⟨1, 0, "d", 5, 0⟩], [], 2, 7⟩ "c" ∧
        newRow.availableSpace = toI64OrZero 9 ∧
        newRow.insertionTime = 7 ∧
        (1 : Nat) = [(⟨"p", 3⟩ : FileEntry)].length ∧
        ∀ f ∈ (save FailSpec.none ⟨"c"⟩ ⟨"d", 9⟩ [⟨"p", 3⟩]
            ⟨[⟨0, "c0"⟩], [⟨1, 0, "d", 5, 0⟩], [], 2, 7⟩).1.fileEntries,
          f ∉ ([] : List FileEntryRow) → f.driveId = newRow.id :=
  ⟨by decide, by decide,
    save_inserts_one_drive_row_when_new FailSpec.none ⟨"c"⟩ ⟨"d", 9⟩ [⟨"p", 3⟩]
      ⟨[⟨0, "c0"⟩], [⟨1, 0, "d", 5, 0⟩], [], 2, 7⟩ _ 1 (by decide) (by decide)⟩

/-! ## Claim C5: dedup idempotence

remove_duplicates deletes exactly the file rows owned by a drive matching
the (category name, drive name) pair, and a remove-then-save sequence run
twice leaves the same number of file rows as running it once.  The key
facts: the rows save inserts are owned by the pair it saved under, and the
ownership status of pre-existing rows is untouched by save because all
freshly inserted category/drive rows carry fresh ids. -/

lemma any_congr_mem {α : Type} {l : List α} {p q : α → Bool}
    (h : ∀ a ∈ l, p a = q a) : l.any p = l.any q := by
  induction l with
  | nil => rfl
  | cons a l ih =>
    simp only [List.any_cons]
    rw [h a (by simp), ih (fun b hb => h b (by simp [hb]))]

lemma ownedBy_congr {db1 db2 : Db} (hd : db1.driveEntries = db2.driveEntries)
    (hc : db1.fileCategories = db2.fileCategories) (cn dn : String) (f : FileEntryRow) :
    ownedBy db1 cn dn f = ownedBy db2 cn dn f := by
  unfold ownedBy
  rw [hd, hc]

lemma any_cats_fresh {cats : List FileCategoryRow} {cid freshId : Uuid} {cname cn : String}
    (hne : cid ≠ freshId) :
    (cats ++ [FileCategoryRow.mk freshId cname]).any
        (fun cc => cc.id == cid && cc.name == cn) =
      cats.any (fun cc => cc.id == cid && cc.name == cn) := by
  rw [List.any_append]
  have hb : (freshId == cid) = false := beq_eq_false_iff_ne.mpr (fun h => hne h.symm)
  simp [hb]

lemma any_append_single_fresh {α : Type} {l : List α} {x : α} {p : α → Bool}
    (hx : p x = false) :
    (l ++ [x]).any p = l.any p := by
  rw [List.any_append]
  simp [hx]

lemma wf_postRemove (cn dn : String) {db : Db} (hwf : db.WF) :
    (postRemove cn dn db).WF := by
  obtain ⟨h1, h2, h3⟩ := hwf
  exact ⟨h1, h2, fun f hf => h3 f (List.mem_filter.mp hf).1⟩

lemma findCategoryId_some {db : Db} {cname : String} {cid : Uuid}
    (h : findCategoryId db cname = some cid) :
    ∃ cr ∈ db.fileCategories, cr.id = cid ∧ cr.name = cname := by
  unfold findCategoryId at h
  cases hfind : db.fileCategories.find? (fun r => r.name == cname) with
  | none => rw [hfind] at h; simp at h
  | some cr =>
    rw [hfind] at h
    simp only [Option.map_some', Option.some.injEq] at h
    refine ⟨cr, List.mem_of_find?_eq_some hfind, h, ?_⟩
    have := List.find?_some hfind
    simpa using this

lemma findDriveId_some {db : Db} {dn : String} {cid did : Uuid}
    (h : findDriveId db dn cid = some did) :
    ∃ dr ∈ db.driveEntries, dr.id = did ∧ dr.name = dn ∧ dr.categoryId = cid := by
  unfold findDriveId at h
  cases hfind : db.driveEntries.find? (fun r => r.name == dn && r.categoryId == cid) with
  | none => rw [hfind] at h; simp at h
  | some dr =>
    rw [hfind] at h
    simp only [Option.map_some', Option.some.injEq] at h
    have hp := List.find?_some hfind
    simp only [Bool.and_eq_true, beq_iff_eq] at hp
    exact ⟨dr, List.mem_of_find?_eq_some hfind, h, hp.1, hp.2⟩

lemma ownedBy_postSave_old (category : Category) (drive : DriveInput)
    (files : List FileEntry) {db : Db} (hwf : db.WF) {f : FileEntryRow}
    (hf : f.driveId < db.nextUuid) (cn dn : String) :
    ownedBy (postSave category drive files db) cn dn f = ownedBy db cn dn f := by
  obtain ⟨-, hdrv, -⟩ := hwf
  unfold ownedBy postSave
  cases hc : findCategoryId db category.name with
  | some cid0 =>
    cases hd : findDriveId db drive.name (resolvedCategoryId db category.name) with
    | some did0 => simp only [hc, hd]
    | none =>
      simp only [hc, hd]
      rw [List.any_map]
      have hx : ((fun dr => dr.id == f.driveId && dr.name == dn &&
          db.fileCategories.any (fun c => c.id == dr.categoryId && c.name == cn)) ∘
            updSpace drive) (DriveEntryRow.mk db.nextUuid
              (resolvedCategoryId db category.name) drive.name
              (toI64OrZero drive.availableSpace) db.now) = false := by
        have hneq : db.nextUuid ≠ f.driveId := hf.ne'
        have hb : (db.nextUuid == f.driveId) = false := beq_eq_false_iff_ne.mpr hneq
        simp [updSpace, hb]
      rw [any_append_single_fresh hx]
      apply any_congr_mem
      intro dr0 hdr0
      obtain ⟨hid, hcid, hname⟩ := updSpace_keeps_keys drive dr0
      simp only [Function.comp_apply, hid, hcid, hname]
  | none =>
    have hres : resolvedCategoryId db category.name = db.nextUuid := by
      unfold resolvedCategoryId
      rw [hc]
    have hfresh : ∀ dr0 ∈ db.driveEntries,
        ((db.fileCategories ++
            [FileCategoryRow.mk (resolvedCategoryId db category.name) category.name]).any
            (fun cc => cc.id == dr0.categoryId && cc.name == cn)) =
          db.fileCategories.any (fun cc => cc.id == dr0.categoryId && cc.name == cn) := by
      intro dr0 hdr0
      have h2 := (hdrv dr0 hdr0).2
      have hneq : dr0.categoryId ≠ resolvedCategoryId db category.name := by
        rw [hres]
        exact h2.ne
      exact any_cats_fresh hneq
    cases hd : findDriveId
        { db with
          fileCategories :=
            db.fileCategories ++ [⟨resolvedCategoryId db category.name, category.name⟩]
          nextUuid := db.nextUuid + 1 } drive.name (resolvedCategoryId db category.name) with
    | some did0 =>
      simp only [hc, hd]
      exact any_congr_mem (fun dr0 hdr0 => by rw [hfresh dr0 hdr0])
    | none =>
      simp only [hc, hd]
      rw [List.any_map]
      have hx : ((fun dr => dr.id == f.driveId && dr.name == dn &&
          (db.fileCategories ++
            [FileCategoryRow.mk (resolvedCategoryId db category.name) category.name]).any
            (fun c => c.id == dr.categoryId && c.name == cn)) ∘
            updSpace drive) (DriveEntryRow.mk (db.nextUuid + 1)
              (resolvedCategoryId db category.name) drive.name
              (toI64OrZero drive.availableSpace) db.now) = false := by
        have hneq : db.nextUuid + 1 ≠ f.driveId := Nat.ne_of_gt (Nat.lt_succ_of_lt hf)
        have hb : (db.nextUuid + 1 == f.driveId) = false := beq_eq_false_iff_ne.mpr hneq
        simp [updSpace, hb]
      rw [any_append_single_fresh hx]
      apply any_congr_mem
      intro dr0 hdr0
      obtain ⟨hid, hcid, hname⟩ := updSpace_keeps_keys drive dr0
      simp only [Function.comp_apply, hid, hcid, hname]
      rw [hfresh dr0 hdr0]

lemma owned_witness {drives : List DriveEntryRow} {cats : List FileCategoryRow}
    {dr : DriveEntryRow} (hdr : dr ∈ drives) {cc : FileCategoryRow} (hcc : cc ∈ cats)
    {f : FileEntryRow} {dn cn : String} (h1 : dr.id = f.driveId) (h2 : dr.name = dn)
    (h3 : cc.id = dr.categoryId) (h4 : cc.name = cn) :
    drives.any (fun dr2 => dr2.id == f.driveId && dr2.name == dn &&
      cats.any (fun c2 => c2.id == dr2.categoryId && c2.name == cn)) = true := by
  apply List.any_eq_true.mpr
  refine ⟨dr, hdr, ?_⟩
  rw [Bool.and_eq_true, Bool.and_eq_true]
  refine ⟨⟨beq_iff_eq.mpr h1, beq_iff_eq.mpr h2⟩, ?_⟩
  exact List.any_eq_true.mpr ⟨cc, hcc, by
    rw [Bool.and_eq_true]
    exact ⟨beq_iff_eq.mpr h3, beq_iff_eq.mpr h4⟩⟩

lemma postSave_files_append (category : Category) (drive : DriveInput)
    (files : List FileEntry) (db : Db) :
    ∃ rows, (postSave category drive files db).fileEntries = db.fileEntries ++ rows ∧
      rows.length = files.length ∧
      ∀ f ∈ rows,
        ownedBy (postSave category drive files db) category.name drive.name f = true := by
  unfold postSave ownedBy
  cases hc : findCategoryId db category.name with
  | some cid0 =>
    obtain ⟨cr, hcrmem, hcrid, hcrname⟩ := findCategoryId_some hc
    have hres : resolvedCategoryId db category.name = cid0 := by
      unfold resolvedCategoryId
      rw [hc]
    cases hd : findDriveId db drive.name (resolvedCategoryId db category.name) with
    | some did0 =>
      obtain ⟨dr, hdrmem, hdrid, hdrname, hdrcat⟩ := findDriveId_some hd
      simp only [hc, hd]
      refine ⟨_, rfl, by simp [List.enum_length], ?_⟩
      intro f hfmem
      obtain ⟨p, -, hp⟩ := List.mem_map.mp hfmem
      have hfid : f.driveId = did0 := by rw [← hp]
      exact owned_witness hdrmem hcrmem (by rw [hdrid, hfid]) hdrname
        (by rw [hcrid, hdrcat, hres]) hcrname
    | none =>
      simp only [hc, hd]
      refine ⟨_, rfl, by simp [List.enum_length], ?_⟩
      intro f hfmem
      obtain ⟨p, -, hp⟩ := List.mem_map.mp hfmem
      have hfid : f.driveId = db.nextUuid := by rw [← hp]
      obtain ⟨hid, hcid, hname⟩ := updSpace_keeps_keys drive
        (DriveEntryRow.mk db.nextUuid (resolvedCategoryId db category.name) drive.name
          (toI64OrZero drive.availableSpace) db.now)
      refine owned_witness (List.mem_map.mpr
          ⟨DriveEntryRow.mk db.nextUuid (resolvedCategoryId db category.name) drive.name
              (toI64OrZero drive.availableSpace) db.now,
            List.mem_append_right _ (List.mem_singleton_self _), rfl⟩)
        hcrmem (by rw [hid, hfid]) (by rw [hname]) ?_ hcrname
      rw [hcid]
      show cr.id = resolvedCategoryId db category.name
      rw [hcrid, hres]
  | none =>
    have hres : resolvedCategoryId db category.name = db.nextUuid := by
      unfold resolvedCategoryId
      rw [hc]
    have hcrmem :
        (FileCategoryRow.mk (resolvedCategoryId db category.name) category.name) ∈
          db.fileCategories ++
            [FileCategoryRow.mk (resolvedCategoryId db category.name) category.name] :=
      List.mem_append_right _ (by simp)
    cases hd : findDriveId
        { db with
          fileCategories :=
            db.fileCategories ++ [⟨resolvedCategoryId db category.name, category.name⟩]
          nextUuid := db.nextUuid + 1 } drive.name (resolvedCategoryId db category.name) with
    | some did0 =>
      obtain ⟨dr, hdrmem, hdrid, hdrname, hdrcat⟩ := findDriveId_some hd
      simp only [hc, hd]
      refine ⟨_, rfl, by simp [List.enum_length], ?_⟩
      intro f hfmem
      obtain ⟨p, -, hp⟩ := List.mem_map.mp hfmem
      have hfid : f.driveId = did0 := by rw [← hp]
      exact owned_witness hdrmem hcrmem (by rw [hdrid, hfid]) hdrname
        (by show resolvedCategoryId db category.name = dr.categoryId; rw [hdrcat]) rfl
    | none =>
      simp only [hc, hd]
      refine ⟨_, rfl, by simp [List.enum_length], ?_⟩
      intro f hfmem
      obtain ⟨p, -, hp⟩ := List.mem_map.mp hfmem
      have hfid : f.driveId = db.nextUuid + 1 := by rw [← hp]
      obtain ⟨hid, hcid, hname⟩ := updSpace_keeps_keys drive
        (DriveEntryRow.mk (db.nextUuid + 1) (resolvedCategoryId db category.name) drive.name
          (toI64OrZero drive.availableSpace) db.now)
      refine owned_witness (List.mem_map.mpr
          ⟨DriveEntryRow.mk (db.nextUuid + 1) (resolvedCategoryId db category.name) drive.name
              (toI64OrZero drive.availableSpace) db.now,
            List.mem_append_right _ (List.mem_singleton_self _), rfl⟩)
        hcrmem (by rw [hid, hfid]) (by rw [hname]) ?_ rfl
      rw [hcid]

lemma mem_postRemove_iff {cn dn : String} {db : Db} {f : FileEntryRow} :
    f ∈ (postRemove cn dn db).fileEntries ↔
      f ∈ db.fileEntries ∧ ownedBy db cn dn f = false := by
  unfold postRemove
  simp [List.mem_filter]

/-- Claim C5: remove_duplicates deletes exactly the file rows owned by a
drive matching the (category name, drive name) pair and no others; and the
remove-then-save sequence for a pair is idempotent in the stored file
count: running it twice on a well-formed store leaves exactly as many file
rows as running it once. -/
theorem dedup_idempotent (category : Category) (drive : DriveInput)
    (files : List FileEntry) (db : Db) (hwf : db.WF) :
    (indexRun category drive files
        (indexRun category drive files db)).fileEntries.length =
      (indexRun category drive files db).fileEntries.length ∧
    ∀ (cn dn : String) (db2 : Db),
      (removeDuplicates FailSpec.none ⟨cn⟩ dn db2).1.fileEntries =
        db2.fileEntries.filter (fun f => !(ownedBy db2 cn dn f)) := by
  refine ⟨?_, fun cn dn db2 => rfl⟩
  rw [indexRun_eq, indexRun_eq]
  obtain ⟨rows1, hrows1, hlen1, howned1⟩ :=
    postSave_files_append category drive files (postRemove category.name drive.name db)
  set R := postRemove category.name drive.name db with hR
  set db1 := postSave category drive files R with hdb1
  have hwfR : R.WF := wf_postRemove _ _ hwf
  have hR2 : (postRemove category.name drive.name db1).fileEntries = R.fileEntries := by
    show db1.fileEntries.filter
        (fun f => !(ownedBy db1 category.name drive.name f)) = R.fileEntries
    rw [hrows1, List.filter_append]
    have h1 : R.fileEntries.filter
        (fun f => !(ownedBy db1 category.name drive.name f)) = R.fileEntries := by
      apply List.filter_eq_self.mpr
      intro f hfmem
      obtain ⟨hfdb, hfnotowned⟩ := mem_postRemove_iff.mp hfmem
      have hfid : f.driveId < R.nextUuid := (hwf.2.2 f hfdb).2
      rw [hdb1, ownedBy_postSave_old category drive files hwfR hfid category.name
        drive.name]
      have hcg : ownedBy R category.name drive.name f =
          ownedBy db category.name drive.name f := ownedBy_congr rfl rfl _ _ _
      rw [hcg, hfnotowned]
      rfl
    have h2 : rows1.filter (fun f => !(ownedBy db1 category.name drive.name f)) = [] := by
      apply List.filter_eq_nil_iff.mpr
      intro f hfmem
      rw [howned1 f hfmem]
      simp
    rw [h1, h2, List.append_nil]
  obtain ⟨rows2, hrows2, hlen2, -⟩ :=
    postSave_files_append category drive files (postRemove category.name drive.name db1)
  rw [hrows2, hR2, hrows1]
  simp [List.length_append, hlen1, hlen2]

/-- Witness for dedup_idempotent on the empty (trivially well-formed)
store with a one-file batch. -/
theorem dedup_idempotent_witness :
    (⟨[], [], [], 0, 0⟩ : Db).WF ∧
      ((indexRun ⟨"c"⟩ ⟨"d", 9⟩ [⟨"p", 3⟩]
            (indexRun ⟨"c"⟩ ⟨"d", 9⟩ [⟨"p", 3⟩] ⟨[], [], [], 0, 0⟩)).fileEntries.length =
          (indexRun ⟨"c"⟩ ⟨"d", 9⟩ [⟨"p", 3⟩] ⟨[], [], [], 0, 0⟩).fileEntries.length ∧
        ∀ (cn dn : String) (db2 : Db),
          (removeDuplicates FailSpec.none ⟨cn⟩ dn db2).1.fileEntries =
            db2.fileEntries.filter (fun f => !(ownedBy db2 cn dn f))) :=
  ⟨by decide, dedup_idempotent ⟨"c"⟩ ⟨"d", 9⟩ [⟨"p", 3⟩] ⟨[], [], [], 0, 0⟩ (by decide)⟩

/-! ## Claims C1 and C6: cache/no-cache equivalence and pagination
completeness

The service computes offset = (page * page_size) as i64 and limit =
page_size as i64.  Whenever page * page_size stays below 2^63 (no i64
overflow of the offset), the cached in-memory slice and the direct
OFFSET/LIMIT query agree; at page * page_size = 2^63 the cast turns the
offset negative, the store then treats it as zero while the in-memory
slice start becomes a huge index, and the two strategies diverge.  The
store capacity bound (an SQLite table cannot reach 2^63 rows) appears as
the hypothesis on the match count. -/

lemma asI64_of_small {n : Nat} (h : n < 2 ^ 63) : asI64 n = (n : Int) := by
  unfold asI64
  rw [Nat.mod_eq_of_lt (lt_trans h (by norm_num))]
  rw [if_pos h]

lemma asI64_neg_of_large {n : Nat} (h1 : 2 ^ 63 ≤ n) (h2 : n < 2 ^ 64) : asI64 n < 0 := by
  unfold asI64
  rw [Nat.mod_eq_of_lt h2, if_neg (by omega)]
  have hcast : (n : Int) < 2 ^ 64 := by exact_mod_cast h2
  omega

lemma asUsize_natCast {n : Nat} (h : n < 2 ^ 64) : asUsize (n : Int) = n := by
  unfold asUsize
  rw [Int.emod_eq_of_lt (Int.natCast_nonneg n) (by exact_mod_cast h)]
  exact Int.toNat_natCast n

lemma sqliteSlice_full {α : Type} (l : List α) : sqliteSlice l 0 (l.length : Int) = l := by
  unfold sqliteSlice
  rw [if_neg (by omega)]
  simp [Int.toNat_natCast]

lemma cachedPageItems_nf (db : List FileWithMetadataDto) (sd q : Option String)
    (page pageSize : Nat) (hN : (matchingRows db sd q).length < 2 ^ 63)
    (hpP : page * pageSize < 2 ^ 63) :
    cachedPageItems db sd q page pageSize =
      (((matchingRows db sd q).map dtoToDomain).drop (page * pageSize)).take pageSize := by
  simp only [cachedPageItems, repoSearchPaginated, sqliteSlice_full, List.length_map]
  generalize hw0 : page * pageSize = w at hpP ⊢
  have hw : asUsize (asI64 w) = w := by
    rw [asI64_of_small hpP]
    exact asUsize_natCast (lt_trans hpP (by norm_num))
  rw [hw]
  by_cases hlt : w < (matchingRows db sd q).length
  · rw [if_pos hlt, List.take_eq_take]
    simp only [List.length_drop, List.length_map]
    omega
  · rw [if_neg hlt]
    have hdrop : ((matchingRows db sd q).map dtoToDomain).drop w = [] :=
      List.drop_eq_nil_of_le (by rw [List.length_map]; omega)
    rw [hdrop, List.take_nil]

lemma directPageItems_nf (db : List FileWithMetadataDto) (sd q : Option String)
    (page pageSize : Nat) (hN : (matchingRows db sd q).length < 2 ^ 63)
    (hP64 : pageSize < 2 ^ 64) (hpP : page * pageSize < 2 ^ 63) :
    directPageItems db sd q page pageSize =
      (((matchingRows db sd q).map dtoToDomain).drop (page * pageSize)).take pageSize := by
  simp only [directPageItems, repoSearchPaginated]
  generalize hw0 : page * pageSize = w at hpP ⊢
  rw [asI64_of_small hpP]
  by_cases hPs : pageSize < 2 ^ 63
  · rw [asI64_of_small hPs]
    simp only [sqliteSlice]
    rw [if_neg (by omega)]
    simp only [Int.toNat_natCast]
    rw [List.map_take, List.map_drop]
  · have hneg : asI64 pageSize < 0 := asI64_neg_of_large (by omega) hP64
    simp only [sqliteSlice]
    rw [if_pos hneg]
    simp only [Int.toNat_natCast]
    rw [List.map_drop]
    symm
    apply List.take_of_length_le
    simp only [List.length_drop, List.length_map]
    omega

lemma searchFiles_items_nf (db : List FileWithMetadataDto) (sd q : Option String)
    (page pageSize : Nat) (hN : (matchingRows db sd q).length < 2 ^ 63)
    (hP64 : pageSize < 2 ^ 64) (hpP : page * pageSize < 2 ^ 63) :
    (searchFiles db sd q page pageSize).items =
      (((matchingRows db sd q).map dtoToDomain).drop (page * pageSize)).take pageSize := by
  unfold searchFiles
  dsimp only
  split
  · exact cachedPageItems_nf db sd q page pageSize hN hpP
  · exact directPageItems_nf db sd q page pageSize hN hP64 hpP

lemma page_mul_lt {N P p : Nat} (hP : 0 < P) (hp : p < (N + P - 1) / P) : p * P < N := by
  have h0 : N ≠ 0 := by
    intro h
    subst h
    have hz : (0 + P - 1) / P = 0 := Nat.div_eq_of_lt (by omega)
    omega
  have h2 : (N + P - 1) / P = (N - 1) / P + 1 := by
    have h3 : N + P - 1 = (N - 1) + P := by omega
    rw [h3, Nat.add_div_right _ hP]
  have h4 : p ≤ (N - 1) / P := by omega
  have h5 : p * P ≤ (N - 1) / P * P := Nat.mul_le_mul_right _ h4
  have h6 : (N - 1) / P * P ≤ N - 1 := Nat.div_mul_le_self _ _
  omega

lemma mem_union_slices {α : Type} (l : List α) (P : Nat) (hP : 0 < P) (x : α) :
    x ∈ l ↔ ∃ p, p < (l.length + P - 1) / P ∧ x ∈ (l.drop (p * P)).take P := by
  constructor
  · intro hx
    obtain ⟨i, hi, hget⟩ := List.mem_iff_getElem.mp hx
    have hdm : i / P * P + i % P = i := by
      have h := Nat.div_add_mod i P
      rw [Nat.mul_comm] at h
      exact h
    refine ⟨i / P, ?_, ?_⟩
    · have h1 : i / P ≤ (l.length - 1) / P := Nat.div_le_div_right (by omega)
      have h2 : (l.length + P - 1) / P = (l.length - 1) / P + 1 := by
        have h3 : l.length + P - 1 = (l.length - 1) + P := by omega
        rw [h3, Nat.add_div_right _ hP]
      omega
    · apply List.mem_iff_getElem.mpr
      refine ⟨i % P, ?_, ?_⟩
      · rw [List.length_take, List.length_drop]
        have hmod : i % P < P := Nat.mod_lt _ hP
        rw [lt_min_iff]
        refine ⟨hmod, ?_⟩
        generalize hQ : i / P * P = Q at hdm ⊢
        omega
      · rw [List.getElem_take, List.getElem_drop]
        simp only [hdm]
        exact hget
  · rintro ⟨p, -, hmem⟩
    exact List.drop_subset _ _ (List.take_subset _ _ hmem)

/-- Counterexample to claim C1 as stated: with one matching row, page
index 2^63 and page size 1, the computed i64 offset overflows negative;
the direct query then treats the offset as zero and returns the row,
while the cached in-memory slice starts at index 2^63 and returns the
empty page — the two strategies disagree. -/
theorem cache_equivalence_counterexample :
    cachedPageItems [⟨"c", "d", 0, 0, "p", 0⟩] none none (2 ^ 63) 1 ≠
      directPageItems [⟨"c", "d", 0, 0, "p", 0⟩] none none (2 ^ 63) 1 := by
  decide

/-- Claim C1 (amended): whenever page * page_size stays below 2^63 (so
the i64 offset cast does not overflow) and the stored match count is
below the 2^63 store capacity, the page served by slicing the fully
fetched matching set in memory is identical to the page returned by a
direct offset/limit query, and search_files returns exactly that page on
both sides of the CACHED_SIZE threshold — caching never alters the
returned items in that range. -/
theorem cache_direct_page_equivalence (db : List FileWithMetadataDto)
    (sd q : Option String) (page pageSize : Nat)
    (hN : (matchingRows db sd q).length < 2 ^ 63)
    (hP64 : pageSize < 2 ^ 64) (hpP : page * pageSize < 2 ^ 63) :
    cachedPageItems db sd q page pageSize = directPageItems db sd q page pageSize ∧
      (searchFiles db sd q page pageSize).items =
        directPageItems db sd q page pageSize := by
  have h1 := cachedPageItems_nf db sd q page pageSize hN hpP
  have h2 := directPageItems_nf db sd q page pageSize hN hP64 hpP
  refine ⟨h1.trans h2.symm, ?_⟩
  rw [searchFiles_items_nf db sd q page pageSize hN hP64 hpP, h2]

/-- Witness for cache_direct_page_equivalence on a one-row store at page
0 with page size 10. -/
theorem cache_direct_page_equivalence_witness :
    (matchingRows [⟨"c", "d", 0, 0, "p", 0⟩] none none).length < 2 ^ 63 ∧
      (10 : Nat) < 2 ^ 64 ∧ 0 * 10 < 2 ^ 63 ∧
      (cachedPageItems [⟨"c", "d", 0, 0, "p", 0⟩] none none 0 10 =
          directPageItems [⟨"c", "d", 0, 0, "p", 0⟩] none none 0 10 ∧
        (searchFiles [⟨"c", "d", 0, 0, "p", 0⟩] none none 0 10).items =
          directPageItems [⟨"c", "d", 0, 0, "p", 0⟩] none none 0 10) :=
  ⟨by decide, by decide, by decide,
    cache_direct_page_equivalence [⟨"c", "d", 0, 0, "p", 0⟩] none none 0 10
      (by decide) (by decide) (by decide)⟩

/-- Claim C6: for every stored catalog, drive filter and query with N
matching rows (N below the 2^63 store capacity) and every page size
0 < P < 2^64, the union of the pages returned by search_files for page
indices 0 through ceil(N/P)-1 is exactly the full matching set, and the
total count reported with every page is N. -/
theorem pagination_completeness (db : List FileWithMetadataDto) (sd q : Option String)
    (P : Nat) (hP : 0 < P) (hP64 : P < 2 ^ 64)
    (hN : (matchingRows db sd q).length < 2 ^ 63) :
    (∀ x, x ∈ (matchingRows db sd q).map dtoToDomain ↔
        ∃ p, p < ((matchingRows db sd q).length + P - 1) / P ∧
          x ∈ (searchFiles db sd q p P).items) ∧
      ∀ p, (searchFiles db sd q p P).totalCount = (matchingRows db sd q).length := by
  constructor
  · intro x
    rw [mem_union_slices ((matchingRows db sd q).map dtoToDomain) P hP x]
    constructor
    · rintro ⟨p, hp, hmem⟩
      rw [List.length_map] at hp
      have hpP : p * P < 2 ^ 63 := lt_trans (page_mul_lt hP hp) hN
      refine ⟨p, hp, ?_⟩
      rw [searchFiles_items_nf db sd q p P hN hP64 hpP]
      exact hmem
    · rintro ⟨p, hp, hmem⟩
      have hpP : p * P < 2 ^ 63 := lt_trans (page_mul_lt hP hp) hN
      rw [searchFiles_items_nf db sd q p P hN hP64 hpP] at hmem
      exact ⟨p, by rw [List.length_map]; exact hp, hmem⟩
  · intro p
    unfold searchFiles
    dsimp only
    split <;> rfl

/-- Witness for pagination_completeness on a one-row store with page
size 1. -/
theorem pagination_completeness_witness :
    (0 : Nat) < 1 ∧ (1 : Nat) < 2 ^ 64 ∧
      (matchingRows [⟨"c", "d", 0, 0, "p", 0⟩] none none).length < 2 ^ 63 ∧
      ((∀ x, x ∈ (matchingRows [⟨"c", "d", 0, 0, "p", 0⟩] none none).map dtoToDomain ↔
          ∃ p, p < ((matchingRows [⟨"c", "d", 0, 0, "p", 0⟩] none none).length + 1 - 1) / 1 ∧
            x ∈ (searchFiles [⟨"c", "d", 0, 0, "p", 0⟩] none none p 1).items) ∧
        ∀ p, (searchFiles [⟨"c", "d", 0, 0, "p", 0⟩] none none p 1).totalCount =
          (matchingRows [⟨"c", "d", 0, 0, "p", 0⟩] none none).length) :=
  ⟨by decide, by decide, by decide,
    pagination_completeness [⟨"c", "d", 0, 0, "p", 0⟩] none none 1
      (by decide) (by decide) (by decide)⟩

/-! ## Claim C7: substring matching semantics

search_pattern wraps the query between percent wildcards and rewrites
every space into the single-character wildcard underscore; the LIKE
comparison of ordinary characters is ASCII case-insensitive.  A plain
query therefore matches case-insensitive substring containment, not
literal containment. -/

lemma searchPattern_eq (q : String) :
    searchPattern q =
      '%' :: (q.data.map (fun c => if c = ' ' then '_' else c)) ++ ['%'] := by
  unfold searchPattern
  simp

lemma likeMatch_nil (t : List Char) : likeMatch [] t = true ↔ t = [] := by
  cases t <;> simp [likeMatch]

lemma likeMatch_pct_step_nil (ps : List Char) :
    likeMatch ('%' :: ps) [] = likeMatch ps [] := by
  simp [likeMatch]

lemma likeMatch_pct_step_cons (ps : List Char) (c : Char) (ts : List Char) :
    likeMatch ('%' :: ps) (c :: ts) =
      (likeMatch ps (c :: ts) || likeMatch ('%' :: ps) ts) := by
  simp [likeMatch]

lemma likeMatch_lit_step_nil (p : Char) (ps : List Char) (hp : p ≠ '%') :
    likeMatch (p :: ps) [] = false := by
  simp [likeMatch, hp]

lemma likeMatch_lit_step (p : Char) (ps : List Char) (c : Char) (ts : List Char)
    (hp : p ≠ '%') :
    likeMatch (p :: ps) (c :: ts) =
      ((decide (p = '_') || lowerAscii p == lowerAscii c) && likeMatch ps ts) := by
  simp [likeMatch, hp]

lemma likeMatch_pct (ps : List Char) (t : List Char) :
    likeMatch ('%' :: ps) t = true ↔ ∃ a b, t = a ++ b ∧ likeMatch ps b = true := by
  induction t with
  | nil =>
    rw [likeMatch_pct_step_nil]
    constructor
    · intro h
      exact ⟨[], [], rfl, h⟩
    · rintro ⟨a, b, hab, h⟩
      obtain ⟨rfl, rfl⟩ := List.append_eq_nil.mp hab.symm
      exact h
  | cons c ts ih =>
    rw [likeMatch_pct_step_cons, Bool.or_eq_true]
    constructor
    · rintro (h | h)
      · exact ⟨[], c :: ts, rfl, h⟩
      · obtain ⟨a, b, hab, hb⟩ := ih.mp h
        exact ⟨c :: a, b, by rw [List.cons_append, hab], hb⟩
    · rintro ⟨a, b, hab, hb⟩
      cases a with
      | nil =>
        left
        rw [List.nil_append] at hab
        rw [← hab] at hb
        exact hb
      | cons c2 a2 =>
        right
        rw [List.cons_append] at hab
        have hts : ts = a2 ++ b := by injection hab
        exact ih.mpr ⟨a2, b, hts, hb⟩

lemma likeMatch_pct_only (t : List Char) : likeMatch ['%'] t = true := by
  induction t with
  | nil =>
    rw [likeMatch_pct_step_nil]
    simp [likeMatch]
  | cons c ts ih =>
    rw [likeMatch_pct_step_cons, ih]
    simp

lemma likeMatch_plain_core (core : List Char) :
    ∀ (t : List Char), (∀ c ∈ core, c ≠ '%') →
      (likeMatch (core ++ ['%']) t = true ↔
        ∃ m b, t = m ++ b ∧
          List.Forall₂ (fun pc mc => pc = '_' ∨ lowerAscii pc = lowerAscii mc) core m) := by
  induction core with
  | nil =>
    intro t hnop
    rw [List.nil_append]
    constructor
    · intro _
      exact ⟨[], t, rfl, List.Forall₂.nil⟩
    · intro _
      exact likeMatch_pct_only t
  | cons p ps ih =>
    intro t hnop
    have hp : p ≠ '%' := hnop p (by simp)
    cases t with
    | nil =>
      rw [List.cons_append, likeMatch_lit_step_nil p _ hp]
      constructor
      · intro h
        exact absurd h (by simp)
      · rintro ⟨m, b, hmb, hf⟩
        obtain ⟨rfl, -⟩ := List.append_eq_nil.mp hmb.symm
        cases hf
    | cons c ts =>
      rw [List.cons_append, likeMatch_lit_step p _ c ts hp, Bool.and_eq_true,
        Bool.or_eq_true]
      simp only [decide_eq_true_eq, beq_iff_eq]
      rw [ih ts (fun x hx => hnop x (by simp [hx]))]
      constructor
      · rintro ⟨hhead, m, b, hmb, hf⟩
        exact ⟨c :: m, b, by rw [List.cons_append, hmb],
          List.forall₂_cons.mpr ⟨hhead, hf⟩⟩
      · rintro ⟨m, b, hmb, hf⟩
        cases m with
        | nil => cases hf
        | cons d m2 =>
          obtain ⟨hdc, hfs⟩ := List.forall₂_cons.mp hf
          rw [List.cons_append] at hmb
          obtain ⟨hd, hts⟩ := List.cons.inj hmb
          subst hd
          exact ⟨hdc, m2, b, hts, hfs⟩

lemma forall₂_sp_iff (l : List Char) :
    ∀ (m : List Char), (∀ c ∈ l, c ≠ '%' ∧ c ≠ '_') →
      (List.Forall₂ (fun pc mc => pc = '_' ∨ lowerAscii pc = lowerAscii mc)
          (l.map (fun c => if c = ' ' then '_' else c)) m ↔
        List.Forall₂ (fun sc mc => sc = ' ' ∨ lowerAscii sc = lowerAscii mc) l m) := by
  induction l with
  | nil =>
    intro m h
    simp
  | cons c l2 ih =>
    intro m h
    cases m with
    | nil => simp
    | cons d m2 =>
      simp only [List.map_cons, List.forall₂_cons]
      rw [ih m2 (fun x hx => h x (by simp [hx]))]
      have hc := h c (by simp)
      have hhead : ((if c = ' ' then '_' else c) = '_' ∨
          lowerAscii (if c = ' ' then '_' else c) = lowerAscii d) ↔
          (c = ' ' ∨ lowerAscii c = lowerAscii d) := by
        by_cases hsp : c = ' '
        · subst hsp
          simp
        · rw [if_neg hsp]
          simp [hsp, hc.2]
      rw [hhead]

lemma likeMatch_searchPattern_iff (q : String) (t : List Char)
    (hq : ∀ c ∈ q.data, c ≠ '%' ∧ c ≠ '_') :
    likeMatch (searchPattern q) t = true ↔
      ∃ a m b, t = a ++ m ++ b ∧
        List.Forall₂ (fun sc mc => sc = ' ' ∨ lowerAscii sc = lowerAscii mc) q.data m := by
  rw [searchPattern_eq, List.cons_append, likeMatch_pct]
  have hnop : ∀ c ∈ q.data.map (fun c => if c = ' ' then '_' else c), c ≠ '%' := by
    intro c hc
    obtain ⟨c0, hc0, hc0e⟩ := List.mem_map.mp hc
    subst hc0e
    by_cases hsp : c0 = ' '
    · simp [hsp]
    · rw [if_neg hsp]
      exact (hq c0 hc0).1
  constructor
  · rintro ⟨a, b, hab, hb⟩
    obtain ⟨m, b2, hmb, hf⟩ := (likeMatch_plain_core _ b hnop).mp hb
    refine ⟨a, m, b2, by rw [hab, hmb, List.append_assoc], ?_⟩
    exact (forall₂_sp_iff q.data m hq).mp hf
  · rintro ⟨a, m, b, hamb, hf⟩
    refine ⟨a, m ++ b, by rw [hamb, List.append_assoc], ?_⟩
    exact (likeMatch_plain_core _ (m ++ b) hnop).mpr
      ⟨m, b, rfl, (forall₂_sp_iff q.data m hq).mpr hf⟩

lemma startsWithCI_iff (s : List Char) :
    ∀ (t : List Char), startsWithCI s t = true ↔
      ∃ m b, t = m ++ b ∧ m.map lowerAscii = s.map lowerAscii := by
  induction s with
  | nil =>
    intro t
    constructor
    · intro _
      exact ⟨[], t, rfl, by simp⟩
    · intro _
      rfl
  | cons a s2 ih =>
    intro t
    cases t with
    | nil =>
      constructor
      · intro h
        cases h
      · rintro ⟨m, b, hmb, hmap⟩
        obtain ⟨rfl, -⟩ := List.append_eq_nil.mp hmb.symm
        simp at hmap
    | cons c ts =>
      show (lowerAscii a == lowerAscii c && startsWithCI s2 ts) = true ↔ _
      rw [Bool.and_eq_true, beq_iff_eq, ih ts]
      constructor
      · rintro ⟨hac, m, b, hmb, hmap⟩
        exact ⟨c :: m, b, by rw [List.cons_append, hmb], by simp [hmap, hac.symm]⟩
      · rintro ⟨m, b, hmb, hmap⟩
        cases m with
        | nil => simp at hmap
        | cons d m2 =>
          rw [List.cons_append] at hmb
          obtain ⟨hd, hts⟩ := List.cons.inj hmb
          subst hd
          simp only [List.map_cons, List.cons.injEq] at hmap
          exact ⟨hmap.1.symm, m2, b, hts, hmap.2⟩

lemma containsCI_iff (s : List Char) :
    ∀ (t : List Char), containsCI s t = true ↔
      ∃ a m b, t = a ++ m ++ b ∧ m.map lowerAscii = s.map lowerAscii := by
  intro t
  induction t with
  | nil =>
    rw [show containsCI s [] = startsWithCI s [] from rfl, startsWithCI_iff]
    constructor
    · rintro ⟨m, b, hmb, hmap⟩
      exact ⟨[], m, b, by rw [List.nil_append]; exact hmb, hmap⟩
    · rintro ⟨a, m, b, hamb, hmap⟩
      have h1 := List.append_eq_nil.mp hamb.symm
      have h2 := List.append_eq_nil.mp h1.1
      exact ⟨m, b, by simp [h2.2, h1.2], hmap⟩
  | cons c ts ih =>
    rw [show containsCI s (c :: ts) =
      (startsWithCI s (c :: ts) || containsCI s ts) from rfl]
    rw [Bool.or_eq_true, startsWithCI_iff, ih]
    constructor
    · rintro (⟨m, b, hmb, hmap⟩ | ⟨a, m, b, hamb, hmap⟩)
      · exact ⟨[], m, b, by rw [List.nil_append]; exact hmb, hmap⟩
      · exact ⟨c :: a, m, b, by rw [List.cons_append, List.cons_append, hamb], hmap⟩
    · rintro ⟨a, m, b, hamb, hmap⟩
      cases a with
      | nil =>
        left
        rw [List.nil_append] at hamb
        exact ⟨m, b, hamb, hmap⟩
      | cons d a2 =>
        right
        rw [List.cons_append, List.cons_append] at hamb
        exact ⟨a2, m, b, (List.cons.inj hamb).2, hmap⟩

lemma forall₂_ci_iff_map (l : List Char) :
    ∀ (m : List Char), (∀ c ∈ l, c ≠ ' ') →
      (List.Forall₂ (fun sc mc => sc = ' ' ∨ lowerAscii sc = lowerAscii mc) l m ↔
        m.map lowerAscii = l.map lowerAscii) := by
  induction l with
  | nil =>
    intro m h
    simp
  | cons c l2 ih =>
    intro m h
    cases m with
    | nil => simp
    | cons d m2 =>
      simp only [List.forall₂_cons, List.map_cons, List.cons.injEq]
      rw [ih m2 (fun x hx => h x (by simp [hx]))]
      have hc := h c (by simp)
      constructor
      · rintro ⟨hcd | hcd, hrest⟩
        · exact absurd hcd hc
        · exact ⟨hcd.symm, hrest⟩
      · rintro ⟨hdc, hrest⟩
        exact ⟨Or.inr hdc.symm, hrest⟩

/-- Counterexample to claim C7 as stated: the stored path is the single
letter A in upper case and the query is the lower-case letter a.  The
query contains no space and no wildcard, a is not a literal substring of
A, yet count returns 1 — LIKE compares ASCII characters
case-insensitively, so the result set is not the literal-substring set. -/
theorem literal_substring_counterexample :
    countSearchResults [⟨"c", "d", 0, 0, "A", 0⟩] none (some "a") = 1 ∧
      ∀ x y : List Char, "A".data ≠ x ++ "a".data ++ y := by
  constructor
  · have hlm : likeMatch (searchPattern "a") "A".data = true := by
      rw [show searchPattern "a" = '%' :: 'a' :: ['%'] from rfl,
        show "A".data = ['A'] from rfl]
      rw [likeMatch_pct_step_cons, likeMatch_lit_step 'a' ['%'] 'A' [] (by decide)]
      rw [likeMatch_pct_step_nil ['a', '%'], likeMatch_lit_step_nil 'a' ['%'] (by decide)]
      rw [likeMatch_pct_step_nil []]
      simp [likeMatch, lowerAscii]
    simp [countSearchResults, matchingRows, rowMatches, toU64OrZero, hlm]
  · intro x y h
    have h1 : 'a' ∈ "a".data := by decide
    have hmem : 'a' ∈ x ++ "a".data ++ y :=
      List.mem_append.mpr (Or.inl (List.mem_append.mpr (Or.inr h1)))
    rw [← h] at hmem
    exact absurd hmem (by decide)

/-- Claim C7 (amended): for every query S without percent or underscore
characters, (a) when S also contains no space, count and search return
exactly the rows whose path contains S as a substring up to ASCII case
(LIKE is case-insensitive on ASCII, so containment is literal only up to
letter case), and (b) for arbitrary spaces in S, a path matches exactly
when it has a segment of the length of S agreeing with S
case-insensitively at every non-space position, each space matching any
single character. -/
theorem like_search_semantics (S : String) (db : List FileWithMetadataDto)
    (hS : ∀ c ∈ S.data, c ≠ '%' ∧ c ≠ '_') :
    ((∀ c ∈ S.data, c ≠ ' ') →
        matchingRows db none (some S) =
          db.filter (fun r => containsCI S.data r.path.data) ∧
        countSearchResults db none (some S) =
          (db.filter (fun r => containsCI S.data r.path.data)).length) ∧
      ∀ t : List Char, likeMatch (searchPattern S) t = true ↔
        ∃ a m b, t = a ++ m ++ b ∧
          List.Forall₂ (fun sc mc => sc = ' ' ∨ lowerAscii sc = lowerAscii mc) S.data m := by
  refine ⟨?_, fun t => likeMatch_searchPattern_iff S t hS⟩
  intro hns
  have hrow : ∀ r ∈ db,
      rowMatches none (some S) r = containsCI S.data r.path.data := by
    intro r hr
    unfold rowMatches
    rw [Bool.true_and]
    rw [Bool.eq_iff_iff]
    rw [likeMatch_searchPattern_iff S r.path.data hS, containsCI_iff]
    constructor
    · rintro ⟨a, m, b, hsplit, hf⟩
      exact ⟨a, m, b, hsplit, (forall₂_ci_iff_map S.data m hns).mp hf⟩
    · rintro ⟨a, m, b, hsplit, hmap⟩
      exact ⟨a, m, b, hsplit, (forall₂_ci_iff_map S.data m hns).mpr hmap⟩
  have hmr : matchingRows db none (some S) =
      db.filter (fun r => containsCI S.data r.path.data) := List.filter_congr hrow
  refine ⟨hmr, ?_⟩
  unfold countSearchResults toU64OrZero
  rw [hmr]
  simp [Int.toNat_natCast]

/-- Witness for like_search_semantics: query ab against a store holding
the path xABy; the row matches up to ASCII case. -/
theorem like_search_semantics_witness :
    (∀ c ∈ "ab".data, c ≠ '%' ∧ c ≠ '_') ∧
      ((∀ c ∈ "ab".data, c ≠ ' ') →
          matchingRows [⟨"c", "d", 0, 0, "xABy", 0⟩] none (some "ab") =
            [(⟨"c", "d", 0, 0, "xABy", 0⟩ : FileWithMetadataDto)].filter
              (fun r => containsCI "ab".data r.path.data) ∧
          countSearchResults [⟨"c", "d", 0, 0, "xABy", 0⟩] none (some "ab") =
            ([(⟨"c", "d", 0, 0, "xABy", 0⟩ : FileWithMetadataDto)].filter
              (fun r => containsCI "ab".data r.path.data)).length) ∧
      ∀ t : List Char, likeMatch (searchPattern "ab") t = true ↔
        ∃ a m b, t = a ++ m ++ b ∧
          List.Forall₂ (fun sc mc => sc = ' ' ∨ lowerAscii sc = lowerAscii mc)
            "ab".data m :=
  ⟨by decide,
    (like_search_semantics "ab" [⟨"c", "d", 0, 0, "xABy", 0⟩] (by decide)).1,
    (like_search_semantics "ab" [⟨"c", "d", 0, 0, "xABy", 0⟩] (by decide)).2⟩

/-! ## Lemmas: the scanner (claim C8) -/

lemma insertLe_perm {α : Type} (le : α → α → Bool) (a : α) :
    ∀ (l : List α), (insertLe le a l).Perm (a :: l) := by
  intro l
  induction l with
  | nil => simp [insertLe]
  | cons b l ih =>
    simp only [insertLe]
    split
    · exact List.Perm.refl _
    · exact (List.Perm.cons b ih).trans (List.Perm.swap a b l)

lemma sortLe_perm {α : Type} (le : α → α → Bool) :
    ∀ (l : List α), (sortLe le l).Perm l := by
  intro l
  induction l with
  | nil => simp [sortLe]
  | cons a l ih => exact (insertLe_perm le a (sortLe le l)).trans (ih.cons a)

lemma mem_sortLe {α : Type} (le : α → α → Bool) (l : List α) (x : α) :
    x ∈ sortLe le l ↔ x ∈ l :=
  (sortLe_perm le l).mem_iff

lemma insertLe_pairwise {α : Type} (le : α → α → Bool)
    (htrans : ∀ a b c, le a b = true → le b c = true → le a c = true)
    (htot : ∀ a b, le a b = true ∨ le b a = true) (a : α) :
    ∀ (l : List α), l.Pairwise (fun x y => le x y = true) →
      (insertLe le a l).Pairwise (fun x y => le x y = true) := by
  intro l
  induction l with
  | nil =>
    intro _
    simp [insertLe]
  | cons b l ih =>
    intro h
    obtain ⟨hb, hl⟩ := List.pairwise_cons.mp h
    simp only [insertLe]
    split
    · rename_i hab
      refine List.Pairwise.cons ?_ h
      intro y hy
      rcases List.mem_cons.mp hy with rfl | hyl
      · exact hab
      · exact htrans a b y hab (hb y hyl)
    · rename_i hab
      have hba : le b a = true := by
        rcases htot a b with h1 | h1
        · exact absurd h1 hab
        · exact h1
      refine List.Pairwise.cons ?_ (ih hl)
      intro y hy
      have hy2 : y ∈ a :: l := (insertLe_perm le a l).mem_iff.mp hy
      rcases List.mem_cons.mp hy2 with rfl | hyl
      · exact hba
      · exact hb y hyl

lemma sortLe_pairwise {α : Type} (le : α → α → Bool)
    (htrans : ∀ a b c, le a b = true → le b c = true → le a c = true)
    (htot : ∀ a b, le a b = true ∨ le b a = true) :
    ∀ (l : List α), (sortLe le l).Pairwise (fun x y => le x y = true) := by
  intro l
  induction l with
  | nil => simp [sortLe]
  | cons a l ih => exact insertLe_pairwise le htrans htot a _ ih

lemma insertLe_map {α β : Type} (f : α → β) (le : β → β → Bool) (a : α) :
    ∀ (l : List α),
      (insertLe (fun x y => le (f x) (f y)) a l).map f = insertLe le (f a) (l.map f) := by
  intro l
  induction l with
  | nil => simp [insertLe]
  | cons b l ih =>
    by_cases hc : le (f a) (f b) = true
    · simp [insertLe, hc]
    · simp [insertLe, hc, ih]

lemma sortLe_map {α β : Type} (f : α → β) (le : β → β → Bool) :
    ∀ (l : List α), (sortLe (fun x y => le (f x) (f y)) l).map f = sortLe le (l.map f) := by
  intro l
  induction l with
  | nil => simp [sortLe]
  | cons a l ih => simp [sortLe, insertLe_map, ih]

lemma sortLe_attach (es : List (String × FsTree)) :
    (sortLe (fun a b => entryNameLe a.1 b.1) es.attach).map Subtype.val =
      sortLe (fun a b => entryNameLe a b) es := by
  rw [sortLe_map Subtype.val (fun a b => entryNameLe a b) es.attach]
  rw [List.attach_map_subtype_val]

lemma walkRel_dir (es : List (String × FsTree)) :
    walkRel (.dir es) = ([], .dir es) ::
      (sortLe (fun a b => entryNameLe a b) es).flatMap
        (fun x => (walkRel x.2).map (fun e => (x.1 :: e.1, e.2))) := by
  simp only [walkRel]
  congr 1
  rw [← sortLe_attach es, List.flatMap_map]

lemma filesOf_dir (es : List (String × FsTree)) :
    filesOf (.dir es) =
      (sortLe (fun a b => entryNameLe a b) es).flatMap
        (fun x => (filesOf x.2).map (fun e => (x.1 :: e.1, e.2))) := by
  simp only [filesOf]
  rw [← sortLe_attach es, List.flatMap_map]

lemma nodupNames_dir (es : List (String × FsTree)) :
    nodupNames (.dir es) =
      (decide (es.map Prod.fst).Nodup && es.all (fun x => nodupNames x.2)) := by
  simp only [nodupNames]
  congr 1
  rw [Bool.eq_iff_iff, List.all_eq_true, List.all_eq_true]
  constructor
  · intro h x hx
    exact h ⟨x, hx⟩ (List.mem_attach es ⟨x, hx⟩)
  · intro h x _
    exact h x.1 x.2

lemma flatMap_congr {α β : Type} (l : List α) (f g : α → List β)
    (h : ∀ a ∈ l, f a = g a) : l.flatMap f = l.flatMap g := by
  induction l with
  | nil => rfl
  | cons a l ih =>
    rw [List.flatMap_cons, List.flatMap_cons, h a (by simp),
      ih (fun x hx => h x (by simp [hx]))]

lemma child_sizeOf_lt {es : List (String × FsTree)} {x : String × FsTree}
    (hx : x ∈ es) : sizeOf x.2 < sizeOf (FsTree.dir es) := by
  have hm := List.sizeOf_lt_of_mem hx
  have h1 : sizeOf x.2 ≤ sizeOf x := by
    obtain ⟨a, c⟩ := x
    have hc : sizeOf (a, c).2 = sizeOf c := rfl
    rw [hc]
    simp only [Prod.mk.sizeOf_spec]
    omega
  have h2 : sizeOf es < sizeOf (FsTree.dir es) := by
    simp only [FsTree.dir.sizeOf_spec]
    omega
  omega

lemma walk_filter_files_aux :
    ∀ (n : Nat) (t : FsTree), sizeOf t = n →
      ((walkRel t).filter (fun e => e.2.isFileNode)).map
        (fun e => (e.1, e.2.nodeSize)) = filesOf t := by
  intro n
  induction n using Nat.strong_induction_on with
  | _ n ih =>
    intro t hn
    cases t with
    | file s => simp [walkRel, filesOf, FsTree.isFileNode, FsTree.nodeSize]
    | dir es =>
      rw [walkRel_dir, filesOf_dir]
      rw [List.filter_cons_of_neg (by simp [FsTree.isFileNode])]
      rw [List.filter_flatMap, List.map_flatMap]
      apply flatMap_congr
      intro x hx
      rw [List.filter_map]
      have hpf : ((fun e : List String × FsTree => e.2.isFileNode) ∘
          (fun e : List String × FsTree => ((x.1 :: e.1 : List String), e.2))) =
          fun e : List String × FsTree => e.2.isFileNode := rfl
      rw [hpf, List.map_map]
      have hx2 : x ∈ es := (mem_sortLe _ es x).mp hx
      have hsz : sizeOf x.2 < n := by
        have := child_sizeOf_lt hx2
        omega
      have hrec := ih (sizeOf x.2) hsz x.2 rfl
      rw [← hrec, List.map_map]
      rfl

lemma walk_filter_files (t : FsTree) :
    ((walkRel t).filter (fun e => e.2.isFileNode)).map
      (fun e => (e.1, e.2.nodeSize)) = filesOf t :=
  walk_filter_files_aux (sizeOf t) t rfl

lemma stripRoot_append : ∀ (root rel : List String), stripRoot root (root ++ rel) = .ok rel := by
  intro root
  induction root with
  | nil =>
    intro rel
    rfl
  | cons r rs ih =>
    intro rel
    simp [stripRoot, ih]

lemma mapM_ok {ε α β : Type} (f : α → Except ε β) (g : α → β) :
    ∀ (l : List α), (∀ a ∈ l, f a = Except.ok (g a)) →
      l.mapM f = Except.ok (l.map g) := by
  intro l
  induction l with
  | nil =>
    intro _
    rfl
  | cons a l ih =>
    intro h
    rw [List.mapM_cons, h a (by simp), ih (fun x hx => h x (by simp [hx]))]
    rfl

lemma mapM_map_except {ε α β γ : Type} (h : α → β) (f : β → Except ε γ) :
    ∀ (l : List α), (l.map h).mapM f = l.mapM (fun a => f (h a)) := by
  intro l
  induction l with
  | nil => rfl
  | cons a l ih =>
    rw [List.map_cons, List.mapM_cons, List.mapM_cons, ih]

lemma scanDirectory_eq (root : List String) (t : FsTree) :
    scanDirectory root t =
      Except.ok ((filesOf t).map (fun e => ScanRecord.mk e.1 e.2)) := by
  simp only [scanDirectory]
  rw [List.filter_map]
  have hpf : ((fun e : List String × FsTree => e.2.isFileNode) ∘
      (fun e : List String × FsTree => ((root ++ e.1 : List String), e.2))) =
      fun e : List String × FsTree => e.2.isFileNode := rfl
  rw [hpf, mapM_map_except]
  have hok : ∀ e ∈ (walkRel t).filter (fun e => e.2.isFileNode),
      (stripRoot root ((root ++ e.1 : List String), e.2).1).map
          (fun rel => ScanRecord.mk rel ((root ++ e.1 : List String), e.2).2.nodeSize) =
        Except.ok (ScanRecord.mk e.1 e.2.nodeSize) := by
    intro e _
    have hs : stripRoot root (root ++ e.1) = Except.ok e.1 := stripRoot_append root e.1
    simp [hs, Except.map]
  rw [mapM_ok _ (fun e => ScanRecord.mk e.1 e.2.nodeSize) _ hok]
  rw [← walk_filter_files t, List.map_map]
  rfl

lemma mem_filesOf_aux :
    ∀ (n : Nat) (t : FsTree), sizeOf t = n →
      ∀ (p : List String) (s : Nat), ((p, s) ∈ filesOf t ↔ IsFileAt t p s) := by
  intro n
  induction n using Nat.strong_induction_on with
  | _ n ih =>
    intro t hn p s
    cases t with
    | file s0 =>
      simp only [filesOf, List.mem_singleton, Prod.mk.injEq]
      constructor
      · rintro ⟨rfl, rfl⟩
        exact IsFileAt.file _
      · intro h
        cases h
        exact ⟨rfl, rfl⟩
    | dir es =>
      rw [filesOf_dir, List.mem_flatMap]
      constructor
      · rintro ⟨x, hxL, hmem⟩
        rw [List.mem_map] at hmem
        obtain ⟨e, he, heq⟩ := hmem
        have hx : x ∈ es := (mem_sortLe _ es x).mp hxL
        rw [Prod.mk.injEq] at heq
        obtain ⟨hp, hs⟩ := heq
        subst hp
        subst hs
        have hsz : sizeOf x.2 < n := by
          have := child_sizeOf_lt hx
          omega
        have hIs : IsFileAt x.2 e.1 e.2 :=
          (ih (sizeOf x.2) hsz x.2 rfl e.1 e.2).mp (by exact he)
        exact IsFileAt.dir hx hIs
      · intro h
        cases h with
        | @dir es2 nm c p2 s2 hmem hchild =>
          have hL : (nm, c) ∈ sortLe (fun a b => entryNameLe a b) es :=
            (mem_sortLe _ es (nm, c)).mpr hmem
          have hsz : sizeOf ((nm, c) : String × FsTree).2 < n := by
            have := child_sizeOf_lt hmem
            omega
          have hrec := (ih (sizeOf ((nm, c) : String × FsTree).2) hsz c rfl p2 s).mpr hchild
          exact ⟨(nm, c), hL, List.mem_map.mpr ⟨(p2, s), hrec, rfl⟩⟩

lemma mem_filesOf (t : FsTree) (p : List String) (s : Nat) :
    (p, s) ∈ filesOf t ↔ IsFileAt t p s :=
  mem_filesOf_aux (sizeOf t) t rfl p s

lemma entryNameLe_trans :
    ∀ a b c : String × FsTree,
      entryNameLe a b = true → entryNameLe b c = true → entryNameLe a c = true := by
  intro a b c h1 h2
  simp only [entryNameLe, decide_eq_true_eq] at h1 h2 ⊢
  exact le_trans h1 h2

lemma entryNameLe_total :
    ∀ a b : String × FsTree, entryNameLe a b = true ∨ entryNameLe b a = true := by
  intro a b
  simp only [entryNameLe, decide_eq_true_eq]
  exact le_total a.1 b.1

lemma filesOf_sorted_aux :
    ∀ (n : Nat) (t : FsTree), sizeOf t = n → nodupNames t = true →
      ((filesOf t).map Prod.fst).Pairwise (List.Lex (· < ·)) := by
  intro n
  induction n using Nat.strong_induction_on with
  | _ n ih =>
    intro t hn hnd
    cases t with
    | file s => simp [filesOf]
    | dir es =>
      rw [filesOf_dir, List.map_flatMap, List.pairwise_flatMap]
      rw [nodupNames_dir, Bool.and_eq_true, decide_eq_true_eq, List.all_eq_true] at hnd
      obtain ⟨hnodup, hall⟩ := hnd
      constructor
      · intro x hx
        rw [List.map_map, List.pairwise_map]
        have hx2 : x ∈ es := (mem_sortLe _ es x).mp hx
        have hsz : sizeOf x.2 < n := by
          have := child_sizeOf_lt hx2
          omega
        have hchild := ih (sizeOf x.2) hsz x.2 rfl (hall x hx2)
        rw [List.pairwise_map] at hchild
        exact hchild.imp (fun h => List.Lex.cons h)
      · have hLle :
            (sortLe (fun a b => entryNameLe a b) es).Pairwise
              (fun x y => entryNameLe x y = true) :=
          sortLe_pairwise _ entryNameLe_trans entryNameLe_total es
        have hmapperm :
            ((sortLe (fun a b => entryNameLe a b) es).map Prod.fst).Perm
              (es.map Prod.fst) :=
          (sortLe_perm _ es).map Prod.fst
        have hLnd : ((sortLe (fun a b => entryNameLe a b) es).map Prod.fst).Nodup :=
          hmapperm.nodup_iff.mpr hnodup
        have hLne :
            (sortLe (fun a b => entryNameLe a b) es).Pairwise
              (fun a b => a.1 ≠ b.1) :=
          List.pairwise_map.mp hLnd
        have hlt :
            (sortLe (fun a b => entryNameLe a b) es).Pairwise
              (fun a b => a.1 < b.1) := by
          refine (hLle.and hLne).imp ?_
          rintro a b ⟨h1, h2⟩
          have h1' : a.1 ≤ b.1 := by
            simpa [entryNameLe] using h1
          exact lt_of_le_of_ne h1' h2
        refine hlt.imp ?_
        intro a b hab q hq r hr
        simp only [List.map_map, List.mem_map] at hq hr
        obtain ⟨e1, he1, rfl⟩ := hq
        obtain ⟨e2, he2, rfl⟩ := hr
        exact List.Lex.rel hab

lemma filesOf_sorted (t : FsTree) (h : nodupNames t = true) :
    ((filesOf t).map Prod.fst).Pairwise (List.Lex (· < ·)) :=
  filesOf_sorted_aux (sizeOf t) t rfl h

/-- **Claim C8** (confirmed): for a filesystem tree with distinct sibling
names, scan_directory succeeds and returns exactly one record per regular
file of the tree in deterministic depth-first name-sorted order
(directories are traversed but never emitted): the records are the
root-relative file listing filesOf, membership in that listing
characterises the regular files of the tree with their metadata byte
size, and the emitted relative paths are strictly increasing in
lexicographic component order. -/
theorem scanner_output (root : List String) (t : FsTree)
    (h : nodupNames t = true) :
    scanDirectory root t =
        Except.ok ((filesOf t).map (fun e => ScanRecord.mk e.1 e.2)) ∧
      (∀ p s, ((p, s) ∈ filesOf t ↔ IsFileAt t p s)) ∧
      ((filesOf t).map Prod.fst).Pairwise (List.Lex (· < ·)) :=
  ⟨scanDirectory_eq root t, fun p s => mem_filesOf t p s, filesOf_sorted t h⟩

/-- Witness for scanner_output: a root holding two files named b and a;
the scan emits both records sorted by name. -/
theorem scanner_output_witness :
    nodupNames (FsTree.dir [("b", .file 2), ("a", .file 1)]) = true ∧
      (scanDirectory ["r"] (FsTree.dir [("b", .file 2), ("a", .file 1)]) =
          Except.ok ((filesOf (FsTree.dir [("b", .file 2), ("a", .file 1)])).map
            (fun e => ScanRecord.mk e.1 e.2)) ∧
        (∀ p s, ((p, s) ∈ filesOf (FsTree.dir [("b", .file 2), ("a", .file 1)]) ↔
            IsFileAt (FsTree.dir [("b", .file 2), ("a", .file 1)]) p s)) ∧
        ((filesOf (FsTree.dir [("b", .file 2), ("a", .file 1)])).map
          Prod.fst).Pairwise (List.Lex (· < ·))) :=
  ⟨by simp [nodupNames_dir, nodupNames],
    scanner_output ["r"] (FsTree.dir [("b", .file 2), ("a", .file 1)])
      (by simp [nodupNames_dir, nodupNames])⟩

end Lister
